import Mathlib

/-!
# Verification of the qt-repo-cache incremental crawler

A shallow embedding of the crawler in `src/cache_updates.py`,
`src/cached_directory.py` and the historical variant `src/cache-updates.py`.
Pure Python string operations are modelled on `List Char`; directory-listing
pages (parsed by the injected bs4-based `iter_html_content` collaborator) are
modelled as lists of `(name, lastModified, sizeLabel)` triples; the remote
tree reachable by recursive fetches is modelled as a finite tree whose nodes
carry the triples a fetch of that page would yield.  Timestamps are `Nat`.
-/

namespace QtRepoCache

/-! ## Python string primitives -/

/-- `listStarts p l` is true when `p` is a prefix of `l`. -/
def listStarts : List Char → List Char → Bool
  | [], _ => true
  | _ :: _, [] => false
  | a :: p, b :: l => if a = b then listStarts p l else false

/-- Python `s.startswith(p)`. -/
def strStarts (s p : String) : Bool := listStarts p.data s.data

/-- Python `s.endswith(p)`. -/
def strEnds (s p : String) : Bool := listStarts p.data.reverse s.data.reverse

/-- `listContainsL p l`: `p` occurs as a contiguous sublist of `l`. -/
def listContainsL (p : List Char) : List Char → Bool
  | [] => listStarts p []
  | c :: cs => listStarts p (c :: cs) || listContainsL p cs

/-- Python `p in s` (substring containment). -/
def strContains (s p : String) : Bool := listContainsL p.data s.data

/-- Python `s.strip()` (trim whitespace at both ends). -/
def pyStrip (s : String) : String :=
  String.mk (((s.data.dropWhile Char.isWhitespace).reverse.dropWhile Char.isWhitespace).reverse)

/-- Python `s.rstrip("/")`. -/
def rstripSlash (s : String) : String :=
  String.mk ((s.data.reverse.dropWhile (· = '/')).reverse)

/-- Python `s.removeprefix(p)`. -/
def removePre (s p : String) : String :=
  if strStarts s p then String.mk (s.data.drop p.data.length) else s

/-! ## FolderClassifier (`is_qt_or_tools` in `cache_updates.py`) -/

/-- `HARDCODED_ALLOWED_TOOLS = ('sdktool',)`. -/
def HARDCODED_ALLOWED_TOOLS : List String := ["sdktool"]

/-- `DEV_REGEX = re.compile(r"^qt\d_dev")`: the name starts with `qt`, one
decimal digit, then `_dev`. -/
def devRegexMatch (s : String) : Bool :=
  match s.data with
  | 'q' :: 't' :: c :: '_' :: 'd' :: 'e' :: 'v' :: _ => c.isDigit
  | _ => false

/-- Backtracking tail matcher for `(\d{1,2})_(\d{1,2})`: one or two digits,
an underscore, then at least one digit. -/
def unsupportedTail (cs : List Char) : Bool :=
  match cs with
  | a :: '_' :: c :: _ => a.isDigit && c.isDigit
  | a :: b :: '_' :: c :: _ => a.isDigit && b.isDigit && c.isDigit
  | _ => false

/-- `UNSUPPORTED_FOLDER_REGEX = re.compile(r"^qt6_(\d{1,2})_(\d{1,2})")`. -/
def unsupportedFolderMatch (s : String) : Bool :=
  match s.data with
  | 'q' :: 't' :: '6' :: '_' :: rest => unsupportedTail rest
  | _ => false

/-- `is_qt_or_tools` from `cache_updates.py`. -/
def is_qt_or_tools (folder : String) : Bool :=
  if devRegexMatch folder then false
  else if strContains folder "backup" || strContains folder "preview" then false
  else if unsupportedFolderMatch folder then false
  else strStarts folder "tools_" || strStarts folder "qt"
    || HARDCODED_ALLOWED_TOOLS.contains folder

/-! ## Specification-level characterizations of the classifier rules

These restate the regex and substring checks of `is_qt_or_tools` as plain
propositions about the character list of the name, for the correctness
theorems of the boolean matchers. -/

/-- What `DEV_REGEX` (`^qt\d_dev`) accepts: `qt`, one digit, then `_dev`. -/
def DevShape (s : String) : Prop :=
  ∃ (c : Char) (t : List Char),
    c.isDigit = true ∧ s.data = 'q' :: 't' :: c :: '_' :: 'd' :: 'e' :: 'v' :: t

/-- What `UNSUPPORTED_FOLDER_REGEX` (`^qt6_(\d{1,2})_(\d{1,2})`) accepts:
`qt6_`, one or two digits, an underscore, then at least one digit. -/
def UnsupportedShape (s : String) : Prop :=
  ∃ (ds : List Char) (c : Char) (t : List Char),
    (∀ x ∈ ds, x.isDigit = true) ∧ 1 ≤ ds.length ∧ ds.length ≤ 2 ∧ c.isDigit = true ∧
    s.data = 'q' :: 't' :: '6' :: '_' :: (ds ++ '_' :: c :: t)

/-- Substring occurrence, as a proposition. -/
def SubstrShape (p s : String) : Prop :=
  ∃ (pre post : List Char), s.data = pre ++ p.data ++ post

/-! ## Partition routing (`CachedDirectory._new_set` / `_previous_set`) -/

inductive Partition where
  | qt
  | tools
deriving DecidableEq

/-- The partition discriminator used by `CachedDirectory`: a folder belongs to
the `qt` bucket exactly when its name starts with `"qt"` (from
`_new_set` / `_previous_set`: `folder.startswith("qt")`). -/
def partitionOf (name : String) : Partition :=
  if strStarts name "qt" then Partition.qt else Partition.tools

/-- Modelled from the spec: the partition rule as the spec words it — "names
starting with `tools` go to the tools bucket; all others accepted go to qt".
Kept separate from `partitionOf` (which is translated from the source) so the
two can be compared. -/
def partitionOfSpec (name : String) : Partition :=
  if strStarts name "tools" then Partition.tools else Partition.qt

/-! ## String ordering (model of Python `sorted` on strings) -/

/-- Lexicographic comparison of code-point lists, Python `<=` on `str`. -/
def listLe : List Char → List Char → Bool
  | [], _ => true
  | _ :: _, [] => false
  | a :: as, b :: bs => if a = b then listLe as bs else decide (a.toNat < b.toNat)

/-- Python string `<=`, as a proposition. -/
def strLe (a b : String) : Prop := listLe a.data b.data = true

instance : DecidableRel strLe :=
  fun a b => inferInstanceAs (Decidable (listLe a.data b.data = true))

/-- Python `sorted` on a list of strings. -/
def sortStr (l : List String) : List String := List.insertionSort strLe l

/-! ## CachedDirectory (`cached_directory.py`)

Python `set`s are modelled as duplicate-free `List String` values (a set with
some iteration order); `json.dumps` of the directory index is modelled by the
pair of sorted key lists it serializes. -/

structure CachedDirectory where
  previous_qt : List String
  previous_tools : List String
  new_qt : List String
  new_tools : List String

namespace CachedDirectory

/-- `use_cached_folder`: copy every entry of the previous set of `folder`'s
partition that starts with `folder` into the new set. -/
def use_cached_folder (cd : CachedDirectory) (folder : String) : CachedDirectory :=
  if strStarts folder "qt" then
    let copied := (cd.previous_qt.filter (fun e => strStarts e folder)).foldl
      (fun s e => s.insert e) cd.new_qt
    { cd with new_qt := copied }
  else
    let copied := (cd.previous_tools.filter (fun e => strStarts e folder)).foldl
      (fun s e => s.insert e) cd.new_tools
    { cd with new_tools := copied }

/-- `out`: the serialized directory index `{"qt": sorted(new_qt), "tools":
sorted(new_tools)}`, modelled as the pair of sorted lists. -/
def out (cd : CachedDirectory) : List String × List String :=
  (sortStr cd.new_qt, sortStr cd.new_tools)

/-- `add_folder`: insert into the new set of the folder's partition. -/
def add_folder (cd : CachedDirectory) (folder : String) : CachedDirectory :=
  if strStarts folder "qt" then { cd with new_qt := cd.new_qt.insert folder }
  else { cd with new_tools := cd.new_tools.insert folder }

/-- `__contains__`: `folder` or some `folder + "/" + ...` is in the previous
set of `folder`'s partition. -/
def containsCD (cd : CachedDirectory) (folder : String) : Bool :=
  (if strStarts folder "qt" then cd.previous_qt else cd.previous_tools).any
    (fun f => f = folder || strStarts f (folder ++ "/"))

/-- `_previous_set`: the previous set of the folder's partition. -/
def previous_set (cd : CachedDirectory) (folder : String) : List String :=
  if strStarts folder "qt" then cd.previous_qt else cd.previous_tools

/-- `_new_set`: the new set of the folder's partition. -/
def new_set (cd : CachedDirectory) (folder : String) : List String :=
  if strStarts folder "qt" then cd.new_qt else cd.new_tools

end CachedDirectory

/-! ## The recursive tree cacher (`fetch_file_directory`) -/

/-- A value of the `RecursiveStrDict`: a size label for files, a nested
dictionary for folders.  The Python dict is modelled as an insertion-ordered
association list. -/
inductive RVal where
  | str (s : String)
  | dict (d : List (String × RVal))

/-- The `RecursiveStrDict` of `cache_updates.py`. -/
abbrev RSDict := List (String × RVal)

/-- Lookup in an association list (Python `d[k]` / `k in d`). -/
def lookupA {κ α : Type} [DecidableEq κ] : List (κ × α) → κ → Option α
  | [], _ => none
  | (k, v) :: tl, k' => if k = k' then some v else lookupA tl k'

/-- Python dict assignment `d[k] = v`: replace in place, else append. -/
def insertA {κ α : Type} [DecidableEq κ] : List (κ × α) → κ → α → List (κ × α)
  | [], k, v => [(k, v)]
  | (k', v') :: tl, k, v => if k' = k then (k, v) :: tl else (k', v') :: insertA tl k v

mutual
/-- The remote tree reachable by `meta.fetch_http`: each node is the parsed
listing page of one directory URL, each entry carrying the subtree that a
fetch of `rest_of_url + folder` would return. -/
inductive RemoteDir where
  | mk (entries : RemoteEntries)
inductive RemoteEntries where
  | nil
  | cons (name : String) (date : Nat) (size : String) (sub : RemoteDir) (tl : RemoteEntries)
end

/-- Observable effects of a tree walk: the running `most_recent` accumulator,
the number of page fetches performed, and (as a specification ghost) the log
of modification times fed to the `most_recent` update. -/
structure TreeStats where
  mostRecent : Nat
  fetches : Nat
  dates : List Nat
deriving DecidableEq

mutual
/-- `get_info_from_page` of `fetch_file_directory`, split into the per-page
function and the loop over the page's entries.  One fetch is counted per page
visited; entries whose stripped name is `"Parent Directory"` are filtered out
by the `iter_html_content` predicate. -/
def getInfo (lu rd : Nat) : RemoteDir → RSDict → Nat → TreeStats → RSDict × TreeStats
  | .mk es, existing, depth, st =>
    getInfoEntries lu rd es existing depth [] { st with fetches := st.fetches + 1 }
  termination_by structural d => d
def getInfoEntries (lu rd : Nat) :
    RemoteEntries → RSDict → Nat → RSDict → TreeStats → RSDict × TreeStats
  | .nil, _, _, acc, st => (acc, st)
  | .cons name date size sub tl, existing, depth, acc, st =>
    if pyStrip name = "Parent Directory" then getInfoEntries lu rd tl existing depth acc st
    else
      let vst :=
        if date ≤ lu ∧ rd ≤ depth ∧ (lookupA existing name).isSome = true then
          ((lookupA existing name).getD (RVal.str ""), st)
        else if strEnds name "/" then
          let prevSub := match lookupA existing name with
            | some (RVal.dict d) => d
            | _ => []
          let r := getInfo lu rd sub prevSub (depth + 1) st
          (RVal.dict r.1, r.2)
        else (RVal.str size, st)
      let st2 : TreeStats :=
        { vst.2 with
          mostRecent := if vst.2.mostRecent < date then date else vst.2.mostRecent,
          dates := vst.2.dates ++ [date] }
      getInfoEntries lu rd tl existing depth (insertA acc name vst.1) st2
  termination_by structural es => es
end

/-- `fetch_file_directory(root_folder, existing_dict, last_update,
required_depth)`; `most_recent` starts at `last_update` and depth at `0`. -/
def fetch_file_directory (remote : RemoteDir) (existing_dict : RSDict)
    (last_update required_depth : Nat) : RSDict × TreeStats :=
  getInfo last_update required_depth remote existing_dict 0 ⟨last_update, 0, []⟩

/-! ## Listing parsing (`iter_folders` over already-parsed table rows) -/

/-- `iter_folders(html_doc, p)`: the bs4 row parsing is the injected
ListingParser collaborator, so the page is modelled as its parsed rows; the
transform strips trailing slashes and the predicate filters the result. -/
def iter_folders (rows : List (String × Nat × String)) (p : String → Bool) :
    List (String × Nat × String) :=
  rows.filterMap (fun r =>
    let n := rstripSlash r.1
    if p n then some (n, r.2.1, r.2.2) else none)

/-! ## Package records and archive-size enrichment (`insert_archive_sizes`) -/

/-- One value of the `content` dict produced by the external
`MetadataFactory._fetch_module_metadata`: the raw string fields, with the two
fields read by `insert_archive_sizes` explicit, plus the `ArchiveSizes` dict
that `insert_archive_sizes` may attach. -/
structure Pkg where
  DownloadableArchives : String
  Version : String
  other : List (String × String)
  ArchiveSizes : Option (List (String × String)) := none
deriving DecidableEq

/-- `should_use_7z` from `insert_archive_sizes`. -/
def should_use_7z (filename_7z : String) : Bool :=
  strEnds filename_7z ".7z" && !(strEnds filename_7z "meta.7z")

/-- `insert_archive_sizes(content, folder_path, meta)`.  The in-place update
of the `content` dict is modelled by rebuilding the association list in
order; the result also counts the listing fetches performed (one per
subfolder whose `DownloadableArchives` contains a comma). -/
def insert_archive_sizes (content : List (String × Pkg)) (folder_path : String)
    (fetchListing : String → List (String × Nat × String)) :
    List (String × Pkg) × Nat :=
  content.foldl
    (fun acc sp =>
      if !(strContains sp.2.DownloadableArchives ",") then (acc.1 ++ [sp], acc.2)
      else
        let rest_of_url := folder_path ++ "/" ++ sp.1 ++ "/"
        let rows := iter_folders (fetchListing rest_of_url) should_use_7z
        let archive_sizes := rows.foldl
          (fun m r => insertA m (removePre r.1 sp.2.Version) r.2.2) []
        (acc.1 ++ [(sp.1, { sp.2 with ArchiveSizes := some archive_sizes })], acc.2 + 1))
    ([], 0)

/-! ## `spider_folder` -/

mutual
/-- The remote subtree walked by `spider_folder`: whether the page contains
the `Updates.xml` anchor, and the parsed rows of the page. -/
inductive SpiderNode where
  | mk (hasUpdatesXml : Bool) (entries : SpEntries)
inductive SpEntries where
  | nil
  | cons (name : String) (date : Nat) (size : String) (sub : SpiderNode) (tl : SpEntries)
end

mutual
/-- `spider_folder(meta, path_to_folder)`: yield the folder itself when its
page contains `Updates.xml`, else recurse into every `iter_folders`-accepted
subfolder. -/
def spider_folder : SpiderNode → String → List String
  | .mk true _, path => [path]
  | .mk false es, path => spiderEntries es path
  termination_by structural n => n
def spiderEntries : SpEntries → String → List String
  | .nil, _ => []
  | .cons name _ _ sub tl, path =>
    (let n := rstripSlash name
     if is_qt_or_tools n then spider_folder sub (path ++ "/" ++ n) else [])
      ++ spiderEntries tl path
  termination_by structural es => es
end

/-! ## `human_readable_amt` (from `cache-updates.py`)

The Python loop divides a float by 1024 until it drops below 1024 and then
formats with `%.4g`.  For the byte counts at hand the quotients are exactly
representable, so the model keeps the exact fraction `num_bytes / 1024^k` as
a numerator/denominator pair and renders `%.4g` in fixed notation (four
significant digits, trailing zeros stripped). -/

def strTake (s : String) (n : Nat) : String := String.mk (s.data.take n)

def strDrop (s : String) (n : Nat) : String := String.mk (s.data.drop n)

def stripZeros (s : String) : String :=
  String.mk ((s.data.reverse.dropWhile (· = '0')).reverse)

/-- `%.4g` of the exact fraction `a / b` (`b > 0`), in fixed notation, for
the arguments produced by `human_readable_amt` (zero, or at least one). -/
def fmtG4Frac (a b : Nat) : String :=
  if a = 0 then "0"
  else
    let ip := a / b
    let e := (toString ip).length - 1
    let scaled := (2 * a * 10 ^ (3 - e) + b) / (2 * b)
    let pair := if 10000 ≤ scaled ∧ e < 3 then (1000, e + 1) else (scaled, e)
    let s4 := toString pair.1
    let ipart := strTake s4 (pair.2 + 1)
    let fpart := stripZeros (strDrop s4 (pair.2 + 1))
    if fpart = "" then ipart else ipart ++ "." ++ fpart

/-- The `for label in [...]` loop of `human_readable_amt`: `size` after `k`
divisions is `num_bytes / 1024^k`, and `size < 1024` is `num_bytes <
1024^(k+1)`. -/
def hraGo (num_bytes : Nat) : List String → Nat → String
  | [], k => fmtG4Frac num_bytes (1024 ^ k) ++ " PB"
  | label :: rest, k =>
    if num_bytes < 1024 ^ (k + 1) then fmtG4Frac num_bytes (1024 ^ k) ++ " " ++ label
    else hraGo num_bytes rest (k + 1)

/-- `human_readable_amt` from `cache-updates.py`. -/
def human_readable_amt (num_bytes : Nat) : String :=
  hraGo num_bytes ["B", "KB", "MB", "GB", "TB"] 0

/-! ## XML manifests and `xml_to_modules` (from `cache-updates.py`) -/

mutual
/-- An ElementTree element: tag, attributes, text, children. -/
inductive Xml where
  | elem (tag : String) (attrs : List (String × String)) (text : Option String)
      (children : XmlList)
inductive XmlList where
  | nil
  | cons (hd : Xml) (tl : XmlList)
end

mutual
/-- `element.iter(tag)`: the element itself (if its tag matches) followed by
all matching descendants, in document order. -/
def xmlIter (tag : String) : Xml → List Xml
  | .elem t a x cs => (if t = tag then [Xml.elem t a x cs] else []) ++ xmlIterList tag cs
  termination_by structural e => e
def xmlIterList (tag : String) : XmlList → List Xml
  | .nil => []
  | .cons c cs => xmlIter tag c ++ xmlIterList tag cs
  termination_by structural l => l
end

/-- `element.find(tag)` over the direct children. -/
def xmlFindIn (tag : String) : XmlList → Option Xml
  | .nil => none
  | .cons (Xml.elem t a x cs) tl =>
    if t = tag then some (Xml.elem t a x cs) else xmlFindIn tag tl

/-- `element.find(tag)`. -/
def xmlFind (tag : String) : Xml → Option Xml
  | .elem _ _ _ cs => xmlFindIn tag cs

/-- `element.text`. -/
def xmlText : Xml → Option String
  | .elem _ _ t _ => t

/-- `element.attrib[key]`, as an `Option`. -/
def xmlAttr (key : String) : Xml → Option String
  | .elem _ attrs _ _ => lookupA attrs key

/-- The per-package dict built by `xml_to_modules`, with the keys it always
assigns.  Element texts may be `None`, hence the `Option`s. -/
structure PkgXml where
  Name : Option String
  DisplayName : Option String
  Description : Option String
  Version : Option String
  ReleaseDate : Option String
  CompressedSize : String
  UncompressedSize : String
  DownloadableArchives : List String
deriving DecidableEq

/-- `aqt.helper.ssplit` (external collaborator): split on commas and
whitespace, dropping empty snippets. -/
def ssplitGo : List Char → List Char → List String
  | [], acc => if acc.isEmpty then [] else [String.mk acc.reverse]
  | c :: cs, acc =>
    if c = ',' ∨ c.isWhitespace then
      if acc.isEmpty then ssplitGo cs [] else String.mk acc.reverse :: ssplitGo cs []
    else ssplitGo cs (c :: acc)

def ssplit (text : String) : List String := ssplitGo text.data []

/-- Python `int(s)` on a decimal attribute value (no sign or blanks). -/
def parseNat (s : String) : Option Nat :=
  if s.data ≠ [] ∧ s.data.all Char.isDigit then
    some (s.data.foldl (fun n c => 10 * n + (c.toNat - 48)) 0)
  else none

/-- The loop body of `xml_to_modules` over the `PackageUpdate` elements.
A missing `DownloadableArchives`/`UpdateFile` or falsy `downloads.text`
skips the element; a missing `Name`/`DisplayName`/`Description`/`Version`/
`ReleaseDate` child or unparseable `UpdateFile` size attribute is the
Python `AttributeError`/`KeyError`/`ValueError` crash, modelled as `none`. -/
def xtmGo : List Xml → List (Option String × PkgXml) → Option (List (Option String × PkgXml))
  | [], acc => some acc
  | pu :: rest, acc =>
    match xmlFind "DownloadableArchives" pu, xmlFind "UpdateFile" pu with
    | some downloads, some update_file =>
      match xmlText downloads with
      | none => xtmGo rest acc
      | some dtext =>
        if dtext = "" then xtmGo rest acc
        else
          match xmlFind "Name" pu, xmlFind "DisplayName" pu, xmlFind "Description" pu,
              xmlFind "Version" pu, xmlFind "ReleaseDate" pu with
          | some nameE, some dnE, some descE, some verE, some rdE =>
            match (xmlAttr "CompressedSize" update_file).bind parseNat,
                (xmlAttr "UncompressedSize" update_file).bind parseNat with
            | some csz, some usz =>
              let pkg : PkgXml :=
                { Name := xmlText nameE, DisplayName := xmlText dnE,
                  Description := xmlText descE, Version := xmlText verE,
                  ReleaseDate := xmlText rdE,
                  CompressedSize := human_readable_amt csz,
                  UncompressedSize := human_readable_amt usz,
                  DownloadableArchives := ssplit dtext }
              xtmGo rest (insertA acc (xmlText nameE) pkg)
            | _, _ => none
          | _, _, _, _, _ => none
    | _, _ => xtmGo rest acc

/-- `xml_to_modules(xml_text)` from `cache-updates.py` (the document is
already parsed; a malformed document is outside this model). -/
def xml_to_modules (doc : Xml) : Option (List (Option String × PkgXml)) :=
  xtmGo (xmlIter "PackageUpdate" doc) []

/-! ## The incremental crawler (`update_xml_files` in `cache_updates.py`)

One `(host, target)` partition is driven by a `PartEnv`: the parsed rows of
its top-level listing page, the remote subtree under each listed folder (for
`spider_folder`), the manifest contents per xml folder (the external
`_fetch_module_metadata`), the listing fetcher used by
`insert_archive_sizes`, and the partition's persisted state (previous
directory index and the manifest files on disk).  The disk is the map from a
folder path to the content of its `<folder>.json`, `none` when absent. -/

abbrev Disk := String → Option (List (String × Pkg))

def updateFn (d : Disk) (k : String) (v : List (String × Pkg)) : Disk :=
  fun x => if x = k then some v else d x

def eraseFn (d : Disk) (k : String) : Disk :=
  fun x => if x = k then none else d x

structure PartEnv where
  listing : List (String × Nat × String)
  spiderTree : String → SpiderNode
  fetchModules : String → List (String × Pkg)
  archListing : String → List (String × Nat × String)
  htmlPath : String
  prevQt : List String
  prevTools : List String
  disk0 : Disk

/-- The mutable state of one partition's crawl: the `CachedDirectory`, the
manifest files on disk, the `most_recent` accumulator, and (as a
specification ghost) the log of dates fed to the `most_recent` update. -/
structure CrawlState where
  cd : CachedDirectory
  disk : Disk
  mostRecent : Nat
  dates : List Nat

/-- The body of `for xml_folder in spider_folder(meta, folder)`. -/
def processXmlFolder (env : PartEnv) (date : Nat) (st : CrawlState) (xf : String) :
    CrawlState :=
  let content := env.fetchModules xf
  if content = [] then st
  else
    let content2 := (insert_archive_sizes content (env.htmlPath ++ xf) env.archListing).1
    let cd1 := st.cd.add_folder xf
    let disk1 := updateFn st.disk xf content2
    let mr1 := if st.mostRecent < date then date else st.mostRecent
    { cd := cd1.add_folder xf, disk := disk1, mostRecent := mr1,
      dates := st.dates ++ [date] }

/-- The body of `for folder, date, _ in iter_folders(html_doc)`. -/
def processFolder (env : PartEnv) (lu : Nat) (st : CrawlState)
    (fd : String × Nat × String) : CrawlState :=
  if fd.2.1 ≤ lu ∧ st.cd.containsCD fd.1 = true then
    { st with cd := st.cd.use_cached_folder fd.1 }
  else
    (spider_folder (env.spiderTree fd.1) fd.1).foldl (processXmlFolder env fd.2.1) st

/-- The inner loop of `prune_removed_files` for one `(previous, new)` pair,
over an enumeration of the previous set.  `unlink` on a missing file raises
`FileNotFoundError`, modelled as `Except.error` carrying the disk state at
the moment of the abort. -/
def pruneList (newSet : List String) : List String → Disk → Except Disk Disk
  | [], d => .ok d
  | f :: fs, d =>
    if f ∈ newSet then pruneList newSet fs d
    else
      match d f with
      | some _ => pruneList newSet fs (eraseFn d f)
      | none => .error d

/-- `CachedDirectory.prune_removed_files`: qt pair first, then tools. -/
def CachedDirectory.prune_removed_files (cd : CachedDirectory) (disk : Disk) :
    Except Disk Disk :=
  match pruneList cd.new_qt cd.previous_qt disk with
  | .error d => .error d
  | .ok d => pruneList cd.new_tools cd.previous_tools d

/-- The outcome of one partition's pass of `update_xml_files`: the new
directory-index sets, the serialized index written by `save()`, the result
of the prune pass, the `most_recent` value, and the ghost date log. -/
structure RunResult where
  newQt : List String
  newTools : List String
  index : List String × List String
  pruneResult : Except Disk Disk
  mostRecent : Nat
  dates : List Nat

/-- The disk after the prune pass, whether or not it aborted. -/
def finalDisk (r : RunResult) : Disk :=
  match r.pruneResult with
  | .ok d => d
  | .error d => d

def exceptOk {ε α : Type} : Except ε α → Bool
  | .ok _ => true
  | .error _ => false

/-- The disk carried by either outcome of a prune pass. -/
def exDisk : Except Disk Disk → Disk
  | .ok d => d
  | .error d => d

/-- One iteration of the `for host, target in iterate_hosts_targets()` loop
of `update_xml_files`: crawl the partition's listing, `save()` the new
directory index, then `prune_removed_files`.  `lu` is the `last_update`
argument and `mr0` the incoming value of the `most_recent` accumulator. -/
def runPartition (env : PartEnv) (lu mr0 : Nat) : RunResult :=
  let folders := iter_folders env.listing is_qt_or_tools
  let st0 : CrawlState :=
    { cd := ⟨env.prevQt, env.prevTools, [], []⟩, disk := env.disk0,
      mostRecent := mr0, dates := [] }
  let st1 := folders.foldl (processFolder env lu) st0
  { newQt := st1.cd.new_qt, newTools := st1.cd.new_tools,
    index := st1.cd.out,
    pruneResult := st1.cd.prune_removed_files st1.disk,
    mostRecent := st1.mostRecent, dates := st1.dates }

/-- The partition loop of `update_xml_files`, threading `most_recent`. -/
def updateGo (lu : Nat) : List PartEnv → Nat → List RunResult × Nat
  | [], mr => ([], mr)
  | env :: rest, mr =>
    let r := runPartition env lu mr
    let p := updateGo lu rest r.mostRecent
    (r :: p.1, p.2)

/-- `update_xml_files(last_update)`: `most_recent` starts at `last_update`;
returns the per-partition outcomes and the final `most_recent`. -/
def update_xml_files (lu : Nat) (parts : List PartEnv) : List RunResult × Nat :=
  updateGo lu parts lu

/-- The persisted state a partition presents to the next run: the directory
index just written and the disk left by the prune pass. -/
def nextEnv (env : PartEnv) (r : RunResult) : PartEnv :=
  { env with prevQt := r.newQt, prevTools := r.newTools, disk0 := finalDisk r }

/-- The `archive_sizes` dict that `insert_archive_sizes` builds for one
subfolder, named for use in specifications. -/
def archiveSizesFor (folder_path sub : String) (pkg : Pkg)
    (fl : String → List (String × Nat × String)) : List (String × String) :=
  (iter_folders (fl (folder_path ++ "/" ++ sub ++ "/")) should_use_7z).foldl
    (fun m r => insertA m (removePre r.1 pkg.Version) r.2.2) []

/-- How a `most_recent` accumulator and its ghost date log evolve: the log
grows by some `δ` and the accumulator is the running maximum of the old
value and the logged dates. -/
def StatsExtends (mr : Nat) (dates : List Nat) (mr' : Nat) (dates' : List Nat) : Prop :=
  ∃ δ, dates' = dates ++ δ ∧ mr' = List.foldl max mr δ

/-- The crawl-state evolution invariant: the previous sets are read-only,
the new sets only grow, and the stats evolve per `StatsExtends`. -/
def CrawlExtends (s s' : CrawlState) : Prop :=
  s'.cd.previous_qt = s.cd.previous_qt ∧ s'.cd.previous_tools = s.cd.previous_tools ∧
  (∀ x, x ∈ s.cd.new_qt → x ∈ s'.cd.new_qt) ∧
  (∀ x, x ∈ s.cd.new_tools → x ∈ s'.cd.new_tools) ∧
  StatsExtends s.mostRecent s.dates s'.mostRecent s'.dates

/-- The manifest content written for one xml folder: the module dict fetched
for it, enriched by `insert_archive_sizes`.  It depends only on the folder
name and the (unchanging) remote data of the environment. -/
def manifestFor (env : PartEnv) (xf : String) : List (String × Pkg) :=
  (insert_archive_sizes (env.fetchModules xf) (env.htmlPath ++ xf) env.archListing).1

/-- The simulation invariant between a first-run crawl state `s1` and the
matching second-run state `s2`, where `Nq`/`Nt` are the first run's final
new sets and `D` its final after-prune disk: the second run's previous sets
are exactly `Nq`/`Nt`, its new sets stay inside them, its disk coincides
pointwise with `D`, and it contains everything the first run has collected
so far. -/
abbrev IdemInv (Nq Nt : List String) (D : Disk) (s1 s2 : CrawlState) : Prop :=
  s2.cd.previous_qt = Nq ∧ s2.cd.previous_tools = Nt ∧
  (∀ e ∈ s2.cd.new_qt, e ∈ Nq) ∧ (∀ e ∈ s2.cd.new_tools, e ∈ Nt) ∧
  (∀ x, s2.disk x = D x) ∧
  (∀ e ∈ s1.cd.new_qt, e ∈ s2.cd.new_qt) ∧ (∀ e ∈ s1.cd.new_tools, e ∈ s2.cd.new_tools)

/-- A trivial partition environment with an empty listing, used to exercise
the run-level theorems on a concrete input. -/
def emptyEnv : PartEnv :=
  ⟨[], fun _ => .mk true .nil, fun _ => [], fun _ => [], "", [], [], fun _ => none⟩

/-! ## Lemmas on the string primitives -/

theorem listStarts_iff (p l : List Char) : listStarts p l = true ↔ ∃ t, l = p ++ t := by
  induction p generalizing l with
  | nil => simp [listStarts]
  | cons a p ih =>
    cases l with
    | nil => simp [listStarts]
    | cons b l' =>
      by_cases hab : a = b
      · subst hab
        simp only [listStarts, if_pos rfl, ite_true, ih, List.cons_append, List.cons.injEq,
          true_and]
      · simp only [listStarts, if_neg hab, List.cons_append, List.cons.injEq]
        constructor
        · intro h; exact absurd h (by simp)
        · rintro ⟨t, hb, -⟩; exact absurd hb.symm hab

theorem strStarts_iff (s p : String) : strStarts s p = true ↔ ∃ t, s.data = p.data ++ t :=
  listStarts_iff p.data s.data

theorem strStarts_self (s : String) : strStarts s s = true :=
  (strStarts_iff s s).2 ⟨[], by simp⟩

theorem strStarts_trans {s f g : String} (h1 : strStarts s f = true)
    (h2 : strStarts f g = true) : strStarts s g = true := by
  obtain ⟨t, ht⟩ := (strStarts_iff s f).1 h1
  obtain ⟨u, hu⟩ := (strStarts_iff f g).1 h2
  exact (strStarts_iff s g).2 ⟨u ++ t, by rw [ht, hu, List.append_assoc]⟩

theorem strStarts_length {s p : String} (h : strStarts s p = true) :
    p.data.length ≤ s.data.length := by
  obtain ⟨t, ht⟩ := (strStarts_iff s p).1 h
  simp [ht]

theorem strStarts_append (p q : String) : strStarts (p ++ q) p = true :=
  (strStarts_iff (p ++ q) p).2 ⟨q.data, rfl⟩

theorem listStarts_shorter : ∀ (a b x : List Char), listStarts a x = true →
    listStarts b x = true → a.length ≤ b.length → listStarts a b = true := by
  intro a
  induction a with
  | nil => intro b x _ _ _; rfl
  | cons c as ih =>
    intro b x h1 h2 hl
    obtain ⟨t1, ht1⟩ := (listStarts_iff _ _).1 h1
    cases b with
    | nil => simp at hl
    | cons d bs =>
      obtain ⟨t2, ht2⟩ := (listStarts_iff _ _).1 h2
      rw [ht1] at ht2
      simp only [List.cons_append, List.cons.injEq] at ht2
      obtain ⟨hdc, htl⟩ := ht2
      subst hdc
      simp only [listStarts, if_pos rfl]
      exact ih bs (as ++ t1) ((listStarts_iff _ _).2 ⟨t1, rfl⟩)
        ((listStarts_iff _ _).2 ⟨t2, htl⟩) (by simpa using hl)

/-- Two prefixes of the same string are comparable; the shorter one is a
prefix of the longer one. -/
theorem strStarts_shorter {e f g : String} (h1 : strStarts e f = true)
    (h2 : strStarts e g = true) (hl : f.data.length ≤ g.data.length) :
    strStarts g f = true :=
  listStarts_shorter f.data g.data e.data h1 h2 hl

/-- A folder accepted by `is_qt_or_tools` has at least two characters. -/
theorem rel_length {f : String} (h : is_qt_or_tools f = true) : 2 ≤ f.data.length := by
  unfold is_qt_or_tools at h
  split at h
  · exact absurd h (by simp)
  · split at h
    · exact absurd h (by simp)
    · split at h
      · exact absurd h (by simp)
      · have h3 : (strStarts f "tools_" = true ∨ strStarts f "qt" = true) ∨ f = "sdktool" := by
          simpa [HARDCODED_ALLOWED_TOOLS, Bool.or_eq_true] using h
        rcases h3 with (h'' | h'') | h''
        · calc 2 ≤ ("tools_" : String).data.length := by decide
            _ ≤ f.data.length := strStarts_length h''
        · calc 2 ≤ ("qt" : String).data.length := by decide
            _ ≤ f.data.length := strStarts_length h''
        · subst h''; decide

/-- Partition agreement: extensions of a folder name of length at least two
start with `"qt"` exactly when the folder does. -/
theorem partition_agree {e f : String} (h : strStarts e f = true)
    (hl : 2 ≤ f.data.length) : strStarts e "qt" = strStarts f "qt" := by
  by_cases hf : strStarts f "qt" = true
  · rw [hf, strStarts_trans h hf]
  · rw [Bool.eq_false_iff.2 hf, Bool.eq_false_iff]
    intro he
    exact hf (strStarts_shorter he h (by simpa using hl))

theorem charToNat_inj {a b : Char} (h : a.toNat = b.toNat) : a = b := by
  rw [← Char.ofNat_toNat a, h, Char.ofNat_toNat]

theorem listLe_total : ∀ a b : List Char, listLe a b = true ∨ listLe b a = true
  | [], _ => Or.inl rfl
  | _ :: _, [] => Or.inr rfl
  | a :: as, b :: bs => by
    by_cases hab : a = b
    · subst hab
      simpa [listLe] using listLe_total as bs
    · have hba : ¬ b = a := fun h => hab h.symm
      have hne : a.toNat ≠ b.toNat := fun h => hab (charToNat_inj h)
      simp only [listLe, if_neg hab, if_neg hba, decide_eq_true_eq]
      omega

theorem listLe_trans : ∀ a b c : List Char,
    listLe a b = true → listLe b c = true → listLe a c = true
  | [], _, _, _, _ => rfl
  | _ :: _, [], _, h, _ => by simp [listLe] at h
  | _ :: _, _ :: _, [], _, h2 => by simp [listLe] at h2
  | a :: as, b :: bs, c :: cs, h1, h2 => by
    by_cases hab : a = b <;> by_cases hbc : b = c
    · subst hab; subst hbc
      simp only [listLe, if_pos rfl, ite_true] at h1 h2 ⊢
      exact listLe_trans as bs cs h1 h2
    · subst hab
      simp only [listLe, if_neg hbc, decide_eq_true_eq] at h2 ⊢
      exact h2
    · subst hbc
      simp only [listLe, if_neg hab, decide_eq_true_eq] at h1 ⊢
      exact h1
    · simp only [listLe, if_neg hab, if_neg hbc, decide_eq_true_eq] at h1 h2
      have hac : ¬ a = c := by
        intro h; subst h; omega
      simp only [listLe, if_neg hac, decide_eq_true_eq]
      omega

theorem listLe_antisymm : ∀ a b : List Char,
    listLe a b = true → listLe b a = true → a = b
  | [], [], _, _ => rfl
  | [], _ :: _, _, h2 => by simp [listLe] at h2
  | _ :: _, [], h1, _ => by simp [listLe] at h1
  | a :: as, b :: bs, h1, h2 => by
    by_cases hab : a = b
    · subst hab
      simp only [listLe, if_pos rfl, ite_true] at h1 h2
      rw [listLe_antisymm as bs h1 h2]
    · have hba : ¬ b = a := fun h => hab h.symm
      simp only [listLe, if_neg hab, if_neg hba, decide_eq_true_eq] at h1 h2
      omega

instance : IsTotal String strLe := ⟨fun a b => listLe_total a.data b.data⟩

instance : IsTrans String strLe := ⟨fun a b c => listLe_trans a.data b.data c.data⟩

instance : IsAntisymm String strLe :=
  ⟨fun a b h1 h2 => by
    cases a; cases b
    exact congrArg String.mk (listLe_antisymm _ _ h1 h2)⟩

/-- Python `sorted` depends only on membership, for duplicate-free lists. -/
theorem sortStr_eq_of_mem {l₁ l₂ : List String} (h₁ : l₁.Nodup) (h₂ : l₂.Nodup)
    (hm : ∀ x, x ∈ l₁ ↔ x ∈ l₂) : sortStr l₁ = sortStr l₂ := by
  apply List.eq_of_perm_of_sorted (r := strLe)
  · exact ((List.perm_insertionSort strLe l₁).trans
      ((List.perm_ext_iff_of_nodup h₁ h₂).2 hm)).trans
      (List.perm_insertionSort strLe l₂).symm
  · exact List.sorted_insertionSort strLe l₁
  · exact List.sorted_insertionSort strLe l₂

/-! ## Association-list and fold lemmas -/

theorem lookupA_insertA_self {κ α : Type} [DecidableEq κ] (l : List (κ × α)) (k : κ) (v : α) :
    lookupA (insertA l k v) k = some v := by
  induction l with
  | nil => simp [insertA, lookupA]
  | cons hd tl ih =>
    obtain ⟨k', v'⟩ := hd
    by_cases h : k' = k
    · subst h; simp [insertA, lookupA]
    · simp [insertA, lookupA, h, ih]

theorem lookupA_insertA_ne {κ α : Type} [DecidableEq κ] (l : List (κ × α)) (k k' : κ) (v : α)
    (h : k ≠ k') : lookupA (insertA l k v) k' = lookupA l k' := by
  induction l with
  | nil => simp [insertA, lookupA, h]
  | cons hd tl ih =>
    obtain ⟨k₀, v₀⟩ := hd
    by_cases h0 : k₀ = k
    · subst h0; simp [insertA, lookupA, h]
    · simp only [insertA, if_neg h0, lookupA]
      by_cases h1 : k₀ = k'
      · simp [h1]
      · simp [h1, ih]

theorem maxIf (a b : Nat) : (if a < b then b else a) = max a b := by
  rcases Nat.lt_or_ge a b with h | h
  · simp [h, Nat.max_eq_right (Nat.le_of_lt h)]
  · simp [Nat.not_lt.2 h, Nat.max_eq_left h]

theorem le_foldl_max (l : List Nat) (a : Nat) : a ≤ l.foldl max a := by
  induction l generalizing a with
  | nil => exact Nat.le_refl a
  | cons b l ih => exact Nat.le_trans (Nat.le_max_left a b) (ih (max a b))

theorem mem_foldl_insert (l : List String) (acc : List String) (x : String) :
    x ∈ l.foldl (fun s e => s.insert e) acc ↔ x ∈ acc ∨ x ∈ l := by
  induction l generalizing acc with
  | nil => simp
  | cons a l ih =>
    simp only [List.foldl_cons, ih, List.mem_insert_iff, List.mem_cons]
    tauto

theorem nodup_foldl_insert (l : List String) (acc : List String) (h : acc.Nodup) :
    (l.foldl (fun s e => s.insert e) acc).Nodup := by
  induction l generalizing acc with
  | nil => exact h
  | cons a l ih => exact ih _ (List.Nodup.insert h)

theorem listContainsL_iff (p : String) : ∀ l : List Char,
    listContainsL p.data l = true ↔ ∃ pre post, l = pre ++ p.data ++ post := by
  intro l
  induction l with
  | nil =>
    simp only [listContainsL, listStarts_iff]
    constructor
    · rintro ⟨t, ht⟩
      rcases List.append_eq_nil.1 ht.symm with ⟨h1, h2⟩
      exact ⟨[], [], by simp [h1]⟩
    · rintro ⟨pre, post, hp⟩
      rcases List.append_eq_nil.1 (List.append_eq_nil.1 hp.symm).1 with ⟨-, h2⟩
      exact ⟨[], by simp [h2]⟩
  | cons c cs ih =>
    simp only [listContainsL, Bool.or_eq_true, listStarts_iff, ih]
    constructor
    · rintro (⟨t, ht⟩ | ⟨pre, post, hp⟩)
      · exact ⟨[], t, by simpa using ht⟩
      · exact ⟨c :: pre, post, by simp [hp]⟩
    · rintro ⟨pre, post, hp⟩
      cases pre with
      | nil => exact Or.inl ⟨post, by simpa using hp⟩
      | cons d pre' =>
        simp only [List.cons_append, List.cons.injEq] at hp
        exact Or.inr ⟨pre', post, hp.2⟩

theorem strContains_iff (s p : String) : strContains s p = true ↔ SubstrShape p s :=
  listContainsL_iff p s.data

/-! ## C6: `use_cached_folder` -/

/-- C6: for every folder `f`, `use_cached_folder f` adds to the new set of
`f`'s partition exactly those entries of the corresponding previous set whose
name starts with `f`, and changes nothing else; in particular, from a
previous qt set `{"qt6_5_0", "qt6_5_0/foo"}`, after `use_cached_folder
"qt6_5_0"` the new qt set contains both `"qt6_5_0"` and `"qt6_5_0/foo"`. -/
theorem use_cached_folder_spec :
    (∀ (cd : CachedDirectory) (folder x : String),
      (x ∈ (cd.use_cached_folder folder).new_qt ↔
        x ∈ cd.new_qt ∨ (strStarts folder "qt" = true ∧ x ∈ cd.previous_qt ∧
          strStarts x folder = true)) ∧
      (x ∈ (cd.use_cached_folder folder).new_tools ↔
        x ∈ cd.new_tools ∨ (strStarts folder "qt" = false ∧ x ∈ cd.previous_tools ∧
          strStarts x folder = true)) ∧
      (cd.use_cached_folder folder).previous_qt = cd.previous_qt ∧
      (cd.use_cached_folder folder).previous_tools = cd.previous_tools) ∧
    "qt6_5_0" ∈ ((⟨["qt6_5_0", "qt6_5_0/foo"], [], [], []⟩ :
      CachedDirectory).use_cached_folder "qt6_5_0").new_qt ∧
    "qt6_5_0/foo" ∈ ((⟨["qt6_5_0", "qt6_5_0/foo"], [], [], []⟩ :
      CachedDirectory).use_cached_folder "qt6_5_0").new_qt := by
  refine ⟨fun cd folder x => ?_, by decide, by decide⟩
  unfold CachedDirectory.use_cached_folder
  by_cases hq : strStarts folder "qt" = true
  · simp [hq, mem_foldl_insert, List.mem_filter, and_assoc]
  · simp only [hq, ite_false, Bool.not_eq_true] at *
    simp [hq, mem_foldl_insert, List.mem_filter, and_assoc]

/-! ## C5: partition routing -/

/-- C5 counterexample: `"sdktool"` is accepted by the folder classifier and
does not start with `"tools"`, yet `CachedDirectory` routes it to the tools
bucket (the code discriminates on the `"qt"` prefix), contradicting the
claimed `"tools"`-prefix routing, which would send it to qt. -/
theorem partition_routing_cex :
    is_qt_or_tools "sdktool" = true ∧ strStarts "sdktool" "tools" = false ∧
    partitionOf "sdktool" = Partition.tools ∧ partitionOfSpec "sdktool" = Partition.qt ∧
    ((⟨[], [], [], []⟩ : CachedDirectory).add_folder "sdktool").new_tools = ["sdktool"] ∧
    ((⟨[], [], [], []⟩ : CachedDirectory).add_folder "sdktool").new_qt = [] := by
  decide

/-- C5 (amended): the partition is decided by the `"qt"` prefix — names
starting with `"qt"` go to the qt bucket and every other name (including
`"tools*"` names and the allow-listed `"sdktool"`) goes to the tools bucket;
this discriminator is the one applied by `add_folder`, `use_cached_folder`
and containment; names starting with `"tools"` do go to the tools bucket,
and `partitionOf "tools_mingw" = tools`, `partitionOf "qt6_5_0" = qt`. -/
theorem partition_routing_amended :
    (∀ (cd : CachedDirectory) (name : String),
      ((cd.add_folder name).new_qt =
        (if partitionOf name = Partition.qt then cd.new_qt.insert name else cd.new_qt)) ∧
      ((cd.add_folder name).new_tools =
        (if partitionOf name = Partition.tools then cd.new_tools.insert name
         else cd.new_tools)) ∧
      (partitionOf name = Partition.tools → (cd.use_cached_folder name).new_qt = cd.new_qt) ∧
      (partitionOf name = Partition.qt →
        (cd.use_cached_folder name).new_tools = cd.new_tools) ∧
      (cd.containsCD name =
        (if partitionOf name = Partition.qt then cd.previous_qt else cd.previous_tools).any
          (fun f => f = name || strStarts f (name ++ "/")))) ∧
    (∀ name : String, strStarts name "tools" = true → partitionOf name = Partition.tools) ∧
    partitionOf "tools_mingw" = Partition.tools ∧ partitionOf "qt6_5_0" = Partition.qt := by
  refine ⟨fun cd name => ?_, fun name h => ?_, by decide, by decide⟩
  · unfold CachedDirectory.add_folder CachedDirectory.use_cached_folder
      CachedDirectory.containsCD partitionOf
    by_cases hq : strStarts name "qt" = true <;> simp [hq]
  · unfold partitionOf
    have : ¬ strStarts name "qt" = true := by
      intro hq
      have h5 : ("qt" : String).data.length ≤ ("tools" : String).data.length := by decide
      have := strStarts_shorter hq h h5
      exact absurd this (by decide)
    simp [this]

/-- C5 amended, witnessed at concrete inputs. -/
theorem partition_routing_amended_witness :
    ((⟨[], [], ["qtx"], ["t"]⟩ : CachedDirectory).use_cached_folder "sdktool").new_qt = ["qtx"] ∧
    ((⟨[], [], ["qtx"], ["t"]⟩ : CachedDirectory).use_cached_folder "qt5").new_tools = ["t"] ∧
    partitionOf "toolsX" = Partition.tools :=
  ⟨(partition_routing_amended.1 ⟨[], [], ["qtx"], ["t"]⟩ "sdktool").2.2.1 (by decide),
   (partition_routing_amended.1 ⟨[], [], ["qtx"], ["t"]⟩ "qt5").2.2.2.1 (by decide),
   partition_routing_amended.2.1 "toolsX" (by decide)⟩

/-! ## C7: the folder relevance rules -/

theorem devRegexMatch_iff (s : String) : devRegexMatch s = true ↔ DevShape s := by
  unfold devRegexMatch DevShape
  split
  next c tail heq =>
    constructor
    · intro h
      exact ⟨c, tail, h, heq⟩
    · rintro ⟨c', t', hd, hs⟩
      rw [heq] at hs
      simp only [List.cons.injEq] at hs
      rw [hs.2.2.1]
      exact hd
  next hno =>
    simp only [Bool.false_eq_true, false_iff, not_exists]
    rintro c t ⟨-, hs⟩
    exact hno c t hs

/-- A list of length one or two is a singleton or a pair. -/
theorem ds_shape {ds : List Char} (h1 : 1 ≤ ds.length) (h2 : ds.length ≤ 2) :
    (∃ d, ds = [d]) ∨ ∃ d1 d2, ds = [d1, d2] := by
  match ds with
  | [d] => exact Or.inl ⟨d, rfl⟩
  | [d1, d2] => exact Or.inr ⟨d1, d2, rfl⟩
  | [] => simp at h1
  | _ :: _ :: _ :: _ => simp at h2

theorem unsupportedTail_iff (cs : List Char) : unsupportedTail cs = true ↔
    ∃ (ds : List Char) (c : Char) (t : List Char),
      (∀ x ∈ ds, x.isDigit = true) ∧ 1 ≤ ds.length ∧ ds.length ≤ 2 ∧ c.isDigit = true ∧
      cs = ds ++ '_' :: c :: t := by
  unfold unsupportedTail
  split
  next a c t =>
    simp only [Bool.and_eq_true]
    constructor
    · rintro ⟨h1, h2⟩
      exact ⟨[a], c, t, by simp [h1], by simp, by simp, h2, by simp⟩
    · rintro ⟨ds, c', t', hds, hl1, hl2, hc', heq⟩
      rcases ds_shape hl1 hl2 with ⟨d, rfl⟩ | ⟨d1, d2, rfl⟩
      · simp only [List.cons_append, List.nil_append, List.cons.injEq] at heq
        obtain ⟨rfl, -, h3, -⟩ := heq
        exact ⟨hds a (by simp), by rw [h3]; exact hc'⟩
      · simp only [List.cons_append, List.nil_append, List.cons.injEq] at heq
        have hd2 : d2.isDigit = true := hds d2 (by simp)
        rw [← heq.2.1] at hd2
        exact absurd hd2 (by decide)
  next a b c t hb =>
    simp only [Bool.and_eq_true]
    constructor
    · rintro ⟨⟨h1, h2⟩, h3⟩
      exact ⟨[a, b], c, t, by simp [h1, h2], by simp, by simp, h3, by simp⟩
    · rintro ⟨ds, c', t', hds, hl1, hl2, hc', heq⟩
      rcases ds_shape hl1 hl2 with ⟨d, rfl⟩ | ⟨d1, d2, rfl⟩
      · simp only [List.cons_append, List.nil_append, List.cons.injEq] at heq
        exact absurd heq.2.1 hb
      · simp only [List.cons_append, List.nil_append, List.cons.injEq] at heq
        obtain ⟨rfl, rfl, -, h4, -⟩ := heq
        exact ⟨⟨hds a (by simp), hds b (by simp)⟩, h4 ▸ hc'⟩
  next hno1 hno2 =>
    simp only [Bool.false_eq_true, false_iff, not_exists]
    rintro ds c t ⟨hds, hl1, hl2, hc, heq⟩
    rcases ds_shape hl1 hl2 with ⟨d, rfl⟩ | ⟨d1, d2, rfl⟩
    · simp only [List.cons_append, List.nil_append] at heq
      exact hno1 d c t heq
    · simp only [List.cons_append, List.nil_append] at heq
      exact hno2 d1 d2 c t heq

theorem unsupportedFolderMatch_iff (s : String) :
    unsupportedFolderMatch s = true ↔ UnsupportedShape s := by
  unfold unsupportedFolderMatch UnsupportedShape
  split
  next rest heq =>
    rw [unsupportedTail_iff]
    constructor
    · rintro ⟨ds, c, t, hds, h1, h2, hc, hr⟩
      exact ⟨ds, c, t, hds, h1, h2, hc, by rw [heq, hr]⟩
    · rintro ⟨ds, c, t, hds, h1, h2, hc, hs⟩
      rw [heq] at hs
      simp only [List.cons.injEq, true_and] at hs
      exact ⟨ds, c, t, hds, h1, h2, hc, hs⟩
  next hno =>
    simp only [Bool.false_eq_true, false_iff, not_exists]
    rintro ds c t ⟨-, -, -, -, hs⟩
    exact hno (ds ++ '_' :: c :: t) hs

/-- C7 counterexample: the claim attributes the rejection of
`"qt6_5_0_dev"` to the developer-build pattern, but `DEV_REGEX`
(`^qt\d_dev`) does not match that name; it is the unsupported-qt6-folder
rule that rejects it. -/
theorem folder_rules_cex :
    devRegexMatch "qt6_5_0_dev" = false ∧ unsupportedFolderMatch "qt6_5_0_dev" = true ∧
    is_qt_or_tools "qt6_5_0_dev" = false := by decide

/-- C7 (amended): `is_qt_or_tools name` is true iff the name does not match
the developer-build pattern, contains neither `"backup"` nor `"preview"`,
does not match the unsupported qt6 version-folder shape, and either starts
with `"tools_"`, starts with `"qt"`, or is in the hardcoded allow-list; in
particular `is_qt_or_tools "qt6_5_0_dev" = false` — rejected by the
unsupported qt6 version-folder rule, not the dev rule, which does not match
it — and `is_qt_or_tools "qt6_5_0-backup" = false`. -/
theorem folder_rules_amended :
    (∀ name : String, is_qt_or_tools name = true ↔
      (¬ DevShape name ∧ ¬ SubstrShape "backup" name ∧ ¬ SubstrShape "preview" name ∧
        ¬ UnsupportedShape name ∧
        (strStarts name "tools_" = true ∨ strStarts name "qt" = true ∨
          name ∈ HARDCODED_ALLOWED_TOOLS))) ∧
    is_qt_or_tools "qt6_5_0_dev" = false ∧ ¬ DevShape "qt6_5_0_dev" ∧
    UnsupportedShape "qt6_5_0_dev" ∧ is_qt_or_tools "qt6_5_0-backup" = false := by
  have main : ∀ name : String, is_qt_or_tools name = true ↔
      (¬ DevShape name ∧ ¬ SubstrShape "backup" name ∧ ¬ SubstrShape "preview" name ∧
        ¬ UnsupportedShape name ∧
        (strStarts name "tools_" = true ∨ strStarts name "qt" = true ∨
          name ∈ HARDCODED_ALLOWED_TOOLS)) := by
    intro name
    unfold is_qt_or_tools
    by_cases h1 : devRegexMatch name = true
    · simp [h1, (devRegexMatch_iff name).1 h1]
    · rw [if_neg h1]
      by_cases h2 : (strContains name "backup" || strContains name "preview") = true
      · rw [if_pos h2]
        rw [Bool.or_eq_true] at h2
        rcases h2 with hb | hp
        · simp [(strContains_iff name "backup").1 hb]
        · simp [(strContains_iff name "preview").1 hp]
      · rw [if_neg h2]
        rw [Bool.or_eq_true] at h2
        push_neg at h2
        by_cases h3 : unsupportedFolderMatch name = true
        · simp [h3, (unsupportedFolderMatch_iff name).1 h3]
        · rw [if_neg h3]
          simp only [Bool.or_eq_true, ← devRegexMatch_iff, ← strContains_iff,
            ← unsupportedFolderMatch_iff, h1, h3, not_false_iff, true_and]
          simp only [h2.1, h2.2, not_false_iff, true_and, HARDCODED_ALLOWED_TOOLS,
            List.elem_iff, List.mem_singleton, Bool.or_eq_true]
          tauto
  refine ⟨main, by decide, ?_, ?_, by decide⟩
  · rw [← devRegexMatch_iff]
    decide
  · rw [← unsupportedFolderMatch_iff]
    decide

/-! ## C9: archive-size enrichment -/

/-- The fold of `insert_archive_sizes`, with its accumulator generalized:
the content entries map one by one and the fetch counter counts the
comma-containing entries. -/
theorem ias_foldl (folder_path : String) (fl : String → List (String × Nat × String)) :
    ∀ (content : List (String × Pkg)) (acc : List (String × Pkg) × Nat),
      content.foldl
        (fun acc sp =>
          if !(strContains sp.2.DownloadableArchives ",") then (acc.1 ++ [sp], acc.2)
          else
            let rest_of_url := folder_path ++ "/" ++ sp.1 ++ "/"
            let rows := iter_folders (fl rest_of_url) should_use_7z
            let archive_sizes := rows.foldl
              (fun m r => insertA m (removePre r.1 sp.2.Version) r.2.2) []
            (acc.1 ++ [(sp.1, { sp.2 with ArchiveSizes := some archive_sizes })], acc.2 + 1))
        acc =
      (acc.1 ++ content.map (fun sp =>
          if strContains sp.2.DownloadableArchives "," then
            (sp.1, { sp.2 with ArchiveSizes := some (archiveSizesFor folder_path sp.1 sp.2 fl) })
          else sp),
        acc.2 + content.countP (fun sp => strContains sp.2.DownloadableArchives ",")) := by
  intro content
  induction content with
  | nil => intro acc; simp
  | cons sp rest ih =>
    intro acc
    by_cases hc : strContains sp.2.DownloadableArchives "," = true
    · rw [List.foldl_cons, if_neg (by simp [hc]), ih]
      simp only [Prod.mk.injEq, List.map_cons, List.countP_cons, hc, ite_true,
        List.append_assoc, List.singleton_append, archiveSizesFor]
      constructor
      · trivial
      · omega
    · have hc' : strContains sp.2.DownloadableArchives "," = false := Bool.eq_false_iff.2 hc
      rw [List.foldl_cons, if_pos (by simp [hc']), ih]
      simp only [Prod.mk.injEq, List.map_cons, List.countP_cons, hc', List.append_assoc,
        List.singleton_append]
      constructor
      · rfl
      · simp

/-- C9 counterexample: a package whose `DownloadableArchives` value lists
exactly one archive (`"a.7z,"` splits to the single archive `"a.7z"`) still
triggers the extra listing fetch and gets an `ArchiveSizes` map attached,
because the code tests for a comma in the raw string, not for more than one
listed archive. -/
theorem insert_archive_sizes_cex :
    (ssplit "a.7z,").length = 1 ∧
    (insert_archive_sizes [("p", ⟨"a.7z,", "v", [], none⟩)] "path" (fun _ => [])).2 = 1 ∧
    (insert_archive_sizes [("p", ⟨"a.7z,", "v", [], none⟩)] "path" (fun _ => [])).1 =
      [("p", ⟨"a.7z,", "v", [], some []⟩)] := by
  decide

/-- C9 (amended): `insert_archive_sizes` attaches an `ArchiveSizes` mapping
to a package record iff the package's `DownloadableArchives` string contains
a comma (which for well-formed comma-separated lists means more than one
archive, but also fires on degenerate values such as a trailing comma),
performing exactly one extra listing fetch per such package; the mapping's
keys are the `.7z` archive filenames with the package's `Version` prefix
stripped, and comma-free packages are returned unchanged with no fetch. -/
theorem insert_archive_sizes_spec :
    (∀ (content : List (String × Pkg)) (folder_path : String)
      (fl : String → List (String × Nat × String)),
      (insert_archive_sizes content folder_path fl).1 =
        content.map (fun sp =>
          if strContains sp.2.DownloadableArchives "," then
            (sp.1, { sp.2 with ArchiveSizes := some (archiveSizesFor folder_path sp.1 sp.2 fl) })
          else sp) ∧
      (insert_archive_sizes content folder_path fl).2 =
        content.countP (fun sp => strContains sp.2.DownloadableArchives ",")) ∧
    (insert_archive_sizes [("p", ⟨"a.7z,b.7z", "1.2-0", [], none⟩)] "x"
      (fun _ => [("1.2-0a.7z", 0, "5 MB"), ("1.2-0meta.7z", 0, "1 KB"), ("b.txt", 0, "2 B")])).1 =
      [("p", ⟨"a.7z,b.7z", "1.2-0", [], some [("a.7z", "5 MB")]⟩)] ∧
    (insert_archive_sizes [("q", ⟨"only.7z", "v", [], none⟩)] "x" (fun _ => [])) =
      ([("q", ⟨"only.7z", "v", [], none⟩)], 0) := by
  refine ⟨fun content folder_path fl => ?_, by decide, by decide⟩
  unfold insert_archive_sizes
  rw [ias_foldl]
  simp

/-! ## C8: manifest extraction -/

/-- C8: `xml_to_modules` includes a package record for a `PackageUpdate`
element iff the element has a `DownloadableArchives` child with non-empty
text and an `UpdateFile` child (elements failing this are skipped outright);
when included, the record is keyed by the `Name` text, its
`DownloadableArchives` is the ordered split of the archives text and its
`CompressedSize` is the human-readable rendering of the `UpdateFile`
attribute.  Concretely, a manifest with a `qtbase` element
(`DownloadableArchives="a.7z,b.7z"`, `UpdateFile CompressedSize="2048"`)
and a second element with empty `DownloadableArchives` text parses to a map
with the single key `qtbase`, `CompressedSize = "2 KB"` and archives
`["a.7z", "b.7z"]`; the empty-archives element is excluded entirely. -/
theorem xml_to_modules_spec :
    (∀ (pu : Xml) (rest : List Xml) (acc : List (Option String × PkgXml)),
      (xmlFind "DownloadableArchives" pu = none ∨ xmlFind "UpdateFile" pu = none ∨
        (xmlFind "DownloadableArchives" pu).bind xmlText = none ∨
        (xmlFind "DownloadableArchives" pu).bind xmlText = some "") →
      xtmGo (pu :: rest) acc = xtmGo rest acc) ∧
    (∀ (pu : Xml) (acc out : List (Option String × PkgXml)) (downloads : Xml) (dtext : String),
      xmlFind "DownloadableArchives" pu = some downloads →
      xmlText downloads = some dtext → dtext ≠ "" →
      (xmlFind "UpdateFile" pu).isSome = true →
      xtmGo [pu] acc = some out →
      ∃ (pkg : PkgXml) (update_file : Xml) (n : Nat),
        out = insertA acc ((xmlFind "Name" pu).bind xmlText) pkg ∧
        xmlFind "UpdateFile" pu = some update_file ∧
        (xmlAttr "CompressedSize" update_file).bind parseNat = some n ∧
        pkg.CompressedSize = human_readable_amt n ∧
        pkg.DownloadableArchives = ssplit dtext ∧
        pkg.Name = (xmlFind "Name" pu).bind xmlText) ∧
    xml_to_modules (Xml.elem "Updates" [] none (.cons
      (Xml.elem "PackageUpdate" [] none (.cons
        (Xml.elem "Name" [] (some "qtbase") .nil) (.cons
        (Xml.elem "DisplayName" [] (some "Qt Base") .nil) (.cons
        (Xml.elem "Description" [] (some "desc") .nil) (.cons
        (Xml.elem "Version" [] (some "1.0") .nil) (.cons
        (Xml.elem "ReleaseDate" [] (some "2020-01-01") .nil) (.cons
        (Xml.elem "DownloadableArchives" [] (some "a.7z,b.7z") .nil) (.cons
        (Xml.elem "UpdateFile"
          [("CompressedSize", "2048"), ("UncompressedSize", "1")] none .nil)
        .nil)))))))) (.cons
      (Xml.elem "PackageUpdate" [] none (.cons
        (Xml.elem "Name" [] (some "skipme") .nil) (.cons
        (Xml.elem "DownloadableArchives" [] (some "") .nil) (.cons
        (Xml.elem "UpdateFile" [("CompressedSize", "7")] none .nil)
        .nil))))
      .nil))) =
      some [(some "qtbase",
        ⟨some "qtbase", some "Qt Base", some "desc", some "1.0", some "2020-01-01",
          "2 KB", "1 B", ["a.7z", "b.7z"]⟩)] := by
  refine ⟨?_, ?_, by decide⟩
  · intro pu rest acc h
    conv_lhs => rw [xtmGo]
    cases hd : xmlFind "DownloadableArchives" pu with
    | none => cases hu : xmlFind "UpdateFile" pu <;> rfl
    | some downloads =>
      cases hu : xmlFind "UpdateFile" pu with
      | none => rfl
      | some uf =>
        rcases h with h | h | h | h
        · rw [h] at hd; exact Option.noConfusion hd
        · rw [h] at hu; exact Option.noConfusion hu
        · rw [hd] at h
          have h' : xmlText downloads = none := h
          simp [h']
        · rw [hd] at h
          have h' : xmlText downloads = some "" := h
          simp [h']
  · intro pu acc out downloads dtext hd ht hne hu hgo
    unfold xtmGo at hgo
    obtain ⟨uf, huf⟩ := Option.isSome_iff_exists.1 hu
    rw [hd, huf] at hgo
    simp only [ht, if_neg hne] at hgo
    cases h1 : xmlFind "Name" pu with
    | none => rw [h1] at hgo; exact absurd hgo (by simp)
    | some nameE =>
    cases h2 : xmlFind "DisplayName" pu with
    | none => rw [h1, h2] at hgo; exact absurd hgo (by simp)
    | some dnE =>
    cases h3 : xmlFind "Description" pu with
    | none => rw [h1, h2, h3] at hgo; exact absurd hgo (by simp)
    | some descE =>
    cases h4 : xmlFind "Version" pu with
    | none => rw [h1, h2, h3, h4] at hgo; exact absurd hgo (by simp)
    | some verE =>
    cases h5 : xmlFind "ReleaseDate" pu with
    | none => rw [h1, h2, h3, h4, h5] at hgo; exact absurd hgo (by simp)
    | some rdE =>
    rw [h1, h2, h3, h4, h5] at hgo
    cases h6 : (xmlAttr "CompressedSize" uf).bind parseNat with
    | none => rw [h6] at hgo; exact absurd hgo (by simp)
    | some csz =>
    cases h7 : (xmlAttr "UncompressedSize" uf).bind parseNat with
    | none => rw [h6, h7] at hgo; exact absurd hgo (by simp)
    | some usz =>
    rw [h6, h7] at hgo
    have hgo' : insertA acc (xmlText nameE) (⟨xmlText nameE, xmlText dnE, xmlText descE,
        xmlText verE, xmlText rdE, human_readable_amt csz, human_readable_amt usz,
        ssplit dtext⟩ : PkgXml) = out := by
      simpa [xtmGo] using hgo
    refine ⟨⟨xmlText nameE, xmlText dnE, xmlText descE, xmlText verE, xmlText rdE,
      human_readable_amt csz, human_readable_amt usz, ssplit dtext⟩,
      uf, csz, ?_, huf, h6, rfl, rfl, ?_⟩
    · simp only [h1, Option.some_bind]
      exact hgo'.symm
    · simp only [h1, Option.some_bind]

/-- C8, witnessed: an element without a `DownloadableArchives` child is
skipped, and a complete element is included with its parsed record. -/
theorem xml_to_modules_spec_witness :
    xtmGo [Xml.elem "PackageUpdate" [] none .nil] [] = xtmGo [] [] ∧
    (let pu1 : Xml := Xml.elem "PackageUpdate" [] none (.cons
        (Xml.elem "Name" [] (some "n") .nil) (.cons
        (Xml.elem "DisplayName" [] (some "d") .nil) (.cons
        (Xml.elem "Description" [] (some "e") .nil) (.cons
        (Xml.elem "Version" [] (some "v") .nil) (.cons
        (Xml.elem "ReleaseDate" [] (some "r") .nil) (.cons
        (Xml.elem "DownloadableArchives" [] (some "x.7z") .nil) (.cons
        (Xml.elem "UpdateFile" [("CompressedSize", "1"), ("UncompressedSize", "1")]
          none .nil)
        .nil)))))));
     ∃ (pkg : PkgXml) (update_file : Xml) (n : Nat),
       [((some "n" : Option String),
         (⟨some "n", some "d", some "e", some "v", some "r", "1 B", "1 B", ["x.7z"]⟩ :
           PkgXml))] =
         insertA [] ((xmlFind "Name" pu1).bind xmlText) pkg ∧
       xmlFind "UpdateFile" pu1 = some update_file ∧
       (xmlAttr "CompressedSize" update_file).bind parseNat = some n ∧
       pkg.CompressedSize = human_readable_amt n ∧
       pkg.DownloadableArchives = ssplit "x.7z" ∧
       pkg.Name = (xmlFind "Name" pu1).bind xmlText) :=
  ⟨xml_to_modules_spec.1 (Xml.elem "PackageUpdate" [] none .nil) [] [] (Or.inl rfl),
   xml_to_modules_spec.2.1 (Xml.elem "PackageUpdate" [] none (.cons
      (Xml.elem "Name" [] (some "n") .nil) (.cons
      (Xml.elem "DisplayName" [] (some "d") .nil) (.cons
      (Xml.elem "Description" [] (some "e") .nil) (.cons
      (Xml.elem "Version" [] (some "v") .nil) (.cons
      (Xml.elem "ReleaseDate" [] (some "r") .nil) (.cons
      (Xml.elem "DownloadableArchives" [] (some "x.7z") .nil) (.cons
      (Xml.elem "UpdateFile" [("CompressedSize", "1"), ("UncompressedSize", "1")]
        none .nil)
      .nil))))))))
      []
      [((some "n" : Option String),
        (⟨some "n", some "d", some "e", some "v", some "r", "1 B", "1 B", ["x.7z"]⟩ :
          PkgXml))]
      (Xml.elem "DownloadableArchives" [] (some "x.7z") .nil) "x.7z"
      rfl rfl (by decide) rfl rfl⟩

/-! ## C1 and C3: the recursive tree cacher -/

theorem statsExtends_refl (mr : Nat) (dates : List Nat) : StatsExtends mr dates mr dates :=
  ⟨[], by simp, rfl⟩

theorem statsExtends_trans {mr1 mr2 mr3 : Nat} {d1 d2 d3 : List Nat}
    (h1 : StatsExtends mr1 d1 mr2 d2) (h2 : StatsExtends mr2 d2 mr3 d3) :
    StatsExtends mr1 d1 mr3 d3 := by
  obtain ⟨δ1, hd1, hm1⟩ := h1
  obtain ⟨δ2, hd2, hm2⟩ := h2
  exact ⟨δ1 ++ δ2, by rw [hd2, hd1, List.append_assoc],
    by rw [hm2, hm1, List.foldl_append]⟩

theorem statsExtends_le {mr mr' : Nat} {d d' : List Nat}
    (h : StatsExtends mr d mr' d') : mr ≤ mr' := by
  obtain ⟨δ, -, hm⟩ := h
  rw [hm]
  exact le_foldl_max δ mr

theorem statsExtends_push (mr mr' : Nat) (d : List Nat) (x : Nat) (h : mr' = max mr x) :
    StatsExtends mr d mr' (d ++ [x]) :=
  ⟨[x], rfl, by simpa using h⟩

/-- The one-step unfolding of `getInfo` on a node. -/
theorem getInfo_mk (lu rd : Nat) (es : RemoteEntries) (existing : RSDict) (depth : Nat)
    (st : TreeStats) :
    getInfo lu rd (.mk es) existing depth st =
      getInfoEntries lu rd es existing depth [] { st with fetches := st.fetches + 1 } := rfl

/-- The one-step unfolding of `getInfoEntries` on a cons cell. -/
theorem getInfoEntries_cons (lu rd : Nat) (name : String) (date : Nat) (size : String)
    (sub : RemoteDir) (tl : RemoteEntries) (existing : RSDict) (depth : Nat) (acc : RSDict)
    (st : TreeStats) :
    getInfoEntries lu rd (.cons name date size sub tl) existing depth acc st =
      if pyStrip name = "Parent Directory" then getInfoEntries lu rd tl existing depth acc st
      else
        let vst :=
          if date ≤ lu ∧ rd ≤ depth ∧ (lookupA existing name).isSome = true then
            ((lookupA existing name).getD (RVal.str ""), st)
          else if strEnds name "/" then
            let prevSub := match lookupA existing name with
              | some (RVal.dict d) => d
              | _ => []
            let r := getInfo lu rd sub prevSub (depth + 1) st
            (RVal.dict r.1, r.2)
          else (RVal.str size, st)
        let st2 : TreeStats :=
          { vst.2 with
            mostRecent := if vst.2.mostRecent < date then date else vst.2.mostRecent,
            dates := vst.2.dates ++ [date] }
        getInfoEntries lu rd tl existing depth (insertA acc name vst.1) st2 := rfl

mutual
theorem getInfo_stats (lu rd : Nat) : ∀ (d : RemoteDir) (existing : RSDict) (depth : Nat)
    (st : TreeStats),
    st.fetches + 1 ≤ (getInfo lu rd d existing depth st).2.fetches ∧
    StatsExtends st.mostRecent st.dates (getInfo lu rd d existing depth st).2.mostRecent
      (getInfo lu rd d existing depth st).2.dates
  | .mk es, existing, depth, st => by
    rw [getInfo_mk]
    exact getInfoEntries_stats lu rd es existing depth [] { st with fetches := st.fetches + 1 }
  termination_by structural d => d
theorem getInfoEntries_stats (lu rd : Nat) : ∀ (es : RemoteEntries) (existing : RSDict)
    (depth : Nat) (acc : RSDict) (st : TreeStats),
    st.fetches ≤ (getInfoEntries lu rd es existing depth acc st).2.fetches ∧
    StatsExtends st.mostRecent st.dates
      (getInfoEntries lu rd es existing depth acc st).2.mostRecent
      (getInfoEntries lu rd es existing depth acc st).2.dates
  | .nil, existing, depth, acc, st => ⟨Nat.le_refl _, statsExtends_refl _ _⟩
  | .cons name date size sub tl, existing, depth, acc, st => by
    rw [getInfoEntries_cons]
    by_cases hpd : pyStrip name = "Parent Directory"
    · rw [if_pos hpd]
      exact getInfoEntries_stats lu rd tl existing depth acc st
    · rw [if_neg hpd]
      by_cases hre : date ≤ lu ∧ rd ≤ depth ∧ (lookupA existing name).isSome = true
      · simp only [hre, ite_true]
        have htl := getInfoEntries_stats lu rd tl existing depth
          (insertA acc name ((lookupA existing name).getD (RVal.str "")))
          { st with
            mostRecent := if st.mostRecent < date then date else st.mostRecent,
            dates := st.dates ++ [date] }
        refine ⟨htl.1, statsExtends_trans ?_ htl.2⟩
        exact statsExtends_push _ _ _ _ (maxIf _ _)
      · simp only [hre, ite_false]
        by_cases hdir : strEnds name "/" = true
        · simp only [hdir, ite_true]
          have hgi := getInfo_stats lu rd sub
            (match lookupA existing name with
              | some (RVal.dict d) => d
              | _ => []) (depth + 1) st
          have htl := getInfoEntries_stats lu rd tl existing depth
            (insertA acc name (RVal.dict (getInfo lu rd sub
              (match lookupA existing name with
                | some (RVal.dict d) => d
                | _ => []) (depth + 1) st).1))
            { (getInfo lu rd sub
                (match lookupA existing name with
                  | some (RVal.dict d) => d
                  | _ => []) (depth + 1) st).2 with
              mostRecent := if (getInfo lu rd sub
                (match lookupA existing name with
                  | some (RVal.dict d) => d
                  | _ => []) (depth + 1) st).2.mostRecent < date then date
                else (getInfo lu rd sub
                  (match lookupA existing name with
                    | some (RVal.dict d) => d
                    | _ => []) (depth + 1) st).2.mostRecent,
              dates := (getInfo lu rd sub
                (match lookupA existing name with
                  | some (RVal.dict d) => d
                  | _ => []) (depth + 1) st).2.dates ++ [date] }
          refine ⟨Nat.le_trans (Nat.le_trans (Nat.le_succ _) hgi.1) htl.1,
            statsExtends_trans (statsExtends_trans hgi.2 ?_) htl.2⟩
          exact statsExtends_push _ _ _ _ (maxIf _ _)
        · simp only [hdir, ite_false]
          have htl := getInfoEntries_stats lu rd tl existing depth
            (insertA acc name (RVal.str size))
            { st with
              mostRecent := if st.mostRecent < date then date else st.mostRecent,
              dates := st.dates ++ [date] }
          refine ⟨htl.1, statsExtends_trans ?_ htl.2⟩
          exact statsExtends_push _ _ _ _ (maxIf _ _)
  termination_by structural es => es
end

theorem getInfoEntries_nil (lu rd : Nat) (existing : RSDict) (depth : Nat) (acc : RSDict)
    (st : TreeStats) : getInfoEntries lu rd .nil existing depth acc st = (acc, st) := rfl

/-- C1: in `fetch_file_directory`, a listing entry at depth `d` is reused
verbatim from the previous tree with no further fetch iff its modification
time is ≤ the cutoff, `d` is at least the required trust depth, and its name
is a key of the previous tree at this level.  For a directory entry the
processing performs no fetch exactly under that condition, and then the
cached value is copied verbatim; otherwise a directory entry is re-descended
into at depth `d+1` (performing at least one fetch) and a file entry stores
the freshly listed size.  Concretely, with `requiredTrustDepth = 1`, a
depth-0 directory with a stale mtime (5 ≤ cutoff 10) is still re-descended
into — the walk performs 2 fetches — while its depth-1 child, whose own
mtime qualifies, is reused from the cache (value `"OLD"`). -/
theorem tree_cacher_reuse (lu rd : Nat) (name : String) (date : Nat) (size : String)
    (sub : RemoteDir) (existing : RSDict) (depth : Nat) (acc : RSDict) (st : TreeStats)
    (hname : ¬ pyStrip name = "Parent Directory") :
    (strEnds name "/" = true →
      ((getInfoEntries lu rd (.cons name date size sub .nil) existing depth acc st).2.fetches
          = st.fetches ↔
        (date ≤ lu ∧ rd ≤ depth ∧ (lookupA existing name).isSome = true))) ∧
    ((date ≤ lu ∧ rd ≤ depth ∧ (lookupA existing name).isSome = true) →
      (getInfoEntries lu rd (.cons name date size sub .nil) existing depth acc st).1 =
        insertA acc name ((lookupA existing name).getD (RVal.str ""))) ∧
    (¬ (date ≤ lu ∧ rd ≤ depth ∧ (lookupA existing name).isSome = true) →
      strEnds name "/" = false →
      (getInfoEntries lu rd (.cons name date size sub .nil) existing depth acc st).1 =
        insertA acc name (RVal.str size)) ∧
    (¬ (date ≤ lu ∧ rd ≤ depth ∧ (lookupA existing name).isSome = true) →
      strEnds name "/" = true →
      (getInfoEntries lu rd (.cons name date size sub .nil) existing depth acc st).1 =
        insertA acc name (RVal.dict (getInfo lu rd sub
          (match lookupA existing name with
            | some (RVal.dict d) => d
            | _ => []) (depth + 1) st).1)) ∧
    fetch_file_directory
      (.mk (.cons "a/" 5 "-" (.mk (.cons "f" 3 "7" (.mk .nil) .nil)) .nil))
      [("a/", RVal.dict [("f", RVal.str "OLD")])] 10 1 =
      ([("a/", RVal.dict [("f", RVal.str "OLD")])], ⟨10, 2, [3, 5]⟩) := by
  refine ⟨?_, ?_, ?_, ?_, by rfl⟩
  · intro hdir
    rw [getInfoEntries_cons, if_neg hname]
    by_cases hre : date ≤ lu ∧ rd ≤ depth ∧ (lookupA existing name).isSome = true
    · simp only [hre, and_self, ite_true, getInfoEntries_nil]
    · simp only [hre, ite_false, hdir, ite_true, getInfoEntries_nil]
      simp only [iff_false, hre, not_false_iff]
      have hgi := (getInfo_stats lu rd sub
        (match lookupA existing name with
          | some (RVal.dict d) => d
          | _ => []) (depth + 1) st).1
      simp only [ne_eq]
      intro hcontra
      rw [hcontra] at hgi
      omega
  · intro hre
    rw [getInfoEntries_cons, if_neg hname]
    simp only [hre, and_self, ite_true, getInfoEntries_nil]
  · intro hre hfile
    rw [getInfoEntries_cons, if_neg hname]
    simp only [hre, ite_false, hfile, Bool.false_eq_true, getInfoEntries_nil]
  · intro hre hdir
    rw [getInfoEntries_cons, if_neg hname]
    simp only [hre, ite_false, hdir, ite_true, getInfoEntries_nil]

/-- C1, witnessed: a stale-looking file entry outside the previous tree is
stored with its fresh size, and a qualifying entry is reused verbatim. -/
theorem tree_cacher_reuse_witness :
    (getInfoEntries 10 0 (.cons "f" 3 "7" (.mk .nil) .nil) [] 0 [] ⟨10, 0, []⟩).1 =
      insertA [] "f" (RVal.str "7") ∧
    (getInfoEntries 10 0 (.cons "g" 3 "7" (.mk .nil) .nil) [("g", RVal.str "OLD")] 0 []
        ⟨10, 0, []⟩).1 =
      insertA [] "g" ((lookupA [("g", RVal.str "OLD")] "g").getD (RVal.str "")) :=
  ⟨(tree_cacher_reuse 10 0 "f" 3 "7" (.mk .nil) [] 0 [] ⟨10, 0, []⟩
      (by decide)).2.2.1 (by decide) (by decide),
   (tree_cacher_reuse 10 0 "g" 3 "7" (.mk .nil) [("g", RVal.str "OLD")] 0 [] ⟨10, 0, []⟩
      (by decide)).2.1 (by decide)⟩

/-! ## Crawl-state lemmas for `update_xml_files` -/

theorem add_folder_previous_qt (cd : CachedDirectory) (f : String) :
    (cd.add_folder f).previous_qt = cd.previous_qt := by
  unfold CachedDirectory.add_folder
  split <;> rfl

theorem add_folder_previous_tools (cd : CachedDirectory) (f : String) :
    (cd.add_folder f).previous_tools = cd.previous_tools := by
  unfold CachedDirectory.add_folder
  split <;> rfl

theorem add_folder_new_qt (cd : CachedDirectory) (f : String) :
    (cd.add_folder f).new_qt =
      (if strStarts f "qt" then cd.new_qt.insert f else cd.new_qt) := by
  unfold CachedDirectory.add_folder
  split <;> rfl

theorem add_folder_new_tools (cd : CachedDirectory) (f : String) :
    (cd.add_folder f).new_tools =
      (if strStarts f "qt" then cd.new_tools else cd.new_tools.insert f) := by
  unfold CachedDirectory.add_folder
  split <;> simp

theorem mem_add_folder_new_qt {cd : CachedDirectory} {f x : String} (h : x ∈ cd.new_qt) :
    x ∈ (cd.add_folder f).new_qt := by
  rw [add_folder_new_qt]
  split
  · exact List.mem_insert_iff.2 (Or.inr h)
  · exact h

theorem mem_add_folder_new_tools {cd : CachedDirectory} {f x : String}
    (h : x ∈ cd.new_tools) : x ∈ (cd.add_folder f).new_tools := by
  rw [add_folder_new_tools]
  split
  · exact h
  · exact List.mem_insert_iff.2 (Or.inr h)

theorem use_cached_previous_qt (cd : CachedDirectory) (f : String) :
    (cd.use_cached_folder f).previous_qt = cd.previous_qt := by
  unfold CachedDirectory.use_cached_folder
  split <;> rfl

theorem use_cached_previous_tools (cd : CachedDirectory) (f : String) :
    (cd.use_cached_folder f).previous_tools = cd.previous_tools := by
  unfold CachedDirectory.use_cached_folder
  split <;> rfl

theorem mem_use_cached_new_qt {cd : CachedDirectory} {f x : String} (h : x ∈ cd.new_qt) :
    x ∈ (cd.use_cached_folder f).new_qt := by
  unfold CachedDirectory.use_cached_folder
  split
  · exact (mem_foldl_insert _ _ _).2 (Or.inl h)
  · exact h

theorem mem_use_cached_new_tools {cd : CachedDirectory} {f x : String}
    (h : x ∈ cd.new_tools) : x ∈ (cd.use_cached_folder f).new_tools := by
  unfold CachedDirectory.use_cached_folder
  split
  · exact h
  · exact (mem_foldl_insert _ _ _).2 (Or.inl h)

theorem crawlExtends_refl (s : CrawlState) : CrawlExtends s s :=
  ⟨rfl, rfl, fun _ h => h, fun _ h => h, statsExtends_refl _ _⟩

theorem crawlExtends_trans {a b c : CrawlState} (h1 : CrawlExtends a b)
    (h2 : CrawlExtends b c) : CrawlExtends a c := by
  obtain ⟨p1, p2, n1, n2, s1⟩ := h1
  obtain ⟨q1, q2, m1, m2, s2⟩ := h2
  exact ⟨q1.trans p1, q2.trans p2, fun x hx => m1 x (n1 x hx), fun x hx => m2 x (n2 x hx),
    statsExtends_trans s1 s2⟩

theorem crawlExtends_foldl {α : Type} (f : CrawlState → α → CrawlState) (l : List α)
    (s : CrawlState) (hstep : ∀ st a, a ∈ l → CrawlExtends st (f st a)) :
    CrawlExtends s (l.foldl f s) := by
  induction l generalizing s with
  | nil => exact crawlExtends_refl s
  | cons a l ih =>
    exact crawlExtends_trans (hstep s a (by simp))
      (ih _ (fun st b hb => hstep st b (by simp [hb])))

theorem processXmlFolder_extends (env : PartEnv) (date : Nat) (st : CrawlState)
    (xf : String) : CrawlExtends st (processXmlFolder env date st xf) := by
  unfold processXmlFolder
  by_cases hc : env.fetchModules xf = []
  · rw [if_pos hc]
    exact crawlExtends_refl st
  · rw [if_neg hc]
    refine ⟨?_, ?_, ?_, ?_, ?_⟩
    · rw [add_folder_previous_qt, add_folder_previous_qt]
    · rw [add_folder_previous_tools, add_folder_previous_tools]
    · exact fun x hx => mem_add_folder_new_qt (mem_add_folder_new_qt hx)
    · exact fun x hx => mem_add_folder_new_tools (mem_add_folder_new_tools hx)
    · exact statsExtends_push _ _ _ _ (maxIf _ _)

theorem processFolder_extends (env : PartEnv) (lu : Nat) (st : CrawlState)
    (fd : String × Nat × String) : CrawlExtends st (processFolder env lu st fd) := by
  unfold processFolder
  split
  · refine ⟨?_, ?_, ?_, ?_, statsExtends_refl _ _⟩
    · exact use_cached_previous_qt _ _
    · exact use_cached_previous_tools _ _
    · exact fun x hx => mem_use_cached_new_qt hx
    · exact fun x hx => mem_use_cached_new_tools hx
  · exact crawlExtends_foldl _ _ _ (fun st' a _ => processXmlFolder_extends env fd.2.1 st' a)

theorem runPartition_extends (env : PartEnv) (lu mr0 : Nat) :
    CrawlExtends
      ⟨⟨env.prevQt, env.prevTools, [], []⟩, env.disk0, mr0, []⟩
      ((iter_folders env.listing is_qt_or_tools).foldl (processFolder env lu)
        ⟨⟨env.prevQt, env.prevTools, [], []⟩, env.disk0, mr0, []⟩) :=
  crawlExtends_foldl _ _ _ (fun st a _ => processFolder_extends env lu st a)

/-! ## C3: monotonic cutoff -/

/-- C3: the timestamps produced by a run are running maxima, hence never go
backwards.  `fetch_file_directory` returns a `most_recent` that is the
maximum of its `last_update` argument and the modification times actually
processed (the ghost date log), so it is ≥ `last_update`; each partition
pass of `update_xml_files` likewise turns its incoming accumulator into the
maximum over the dates it records, and the value returned by
`update_xml_files` is ≥ its `last_update` argument, being the maximum of
the cutoff and all recorded dates. -/
theorem monotonic_cutoff :
    (∀ (remote : RemoteDir) (existing : RSDict) (lu rd : Nat),
      (fetch_file_directory remote existing lu rd).2.mostRecent =
        List.foldl max lu (fetch_file_directory remote existing lu rd).2.dates ∧
      lu ≤ (fetch_file_directory remote existing lu rd).2.mostRecent) ∧
    (∀ (env : PartEnv) (lu mr0 : Nat),
      (runPartition env lu mr0).mostRecent =
        List.foldl max mr0 (runPartition env lu mr0).dates ∧
      mr0 ≤ (runPartition env lu mr0).mostRecent) ∧
    (∀ (lu : Nat) (parts : List PartEnv),
      (update_xml_files lu parts).2 =
        List.foldl max lu (((update_xml_files lu parts).1.map RunResult.dates).flatten) ∧
      lu ≤ (update_xml_files lu parts).2) := by
  have hrun : ∀ (env : PartEnv) (lu mr0 : Nat),
      (runPartition env lu mr0).mostRecent =
        List.foldl max mr0 (runPartition env lu mr0).dates ∧
      mr0 ≤ (runPartition env lu mr0).mostRecent := by
    intro env lu mr0
    obtain ⟨δ, hd, hm⟩ := (runPartition_extends env lu mr0).2.2.2.2
    simp only [List.nil_append] at hd
    have hdates : (runPartition env lu mr0).dates =
        (List.foldl (processFolder env lu)
          ⟨⟨env.prevQt, env.prevTools, [], []⟩, env.disk0, mr0, []⟩
          (iter_folders env.listing is_qt_or_tools)).dates := rfl
    have hmr : (runPartition env lu mr0).mostRecent =
        (List.foldl (processFolder env lu)
          ⟨⟨env.prevQt, env.prevTools, [], []⟩, env.disk0, mr0, []⟩
          (iter_folders env.listing is_qt_or_tools)).mostRecent := rfl
    constructor
    · rw [hmr, hdates, hm, hd]
    · rw [hmr, hm]
      exact le_foldl_max δ mr0
  have hgo : ∀ (lu : Nat) (parts : List PartEnv) (mr0 : Nat),
      (updateGo lu parts mr0).2 =
        List.foldl max mr0 (((updateGo lu parts mr0).1.map RunResult.dates).flatten) ∧
      mr0 ≤ (updateGo lu parts mr0).2 := by
    intro lu parts
    induction parts with
    | nil => intro mr0; simp [updateGo]
    | cons env rest ih =>
      intro mr0
      have hr := hrun env lu mr0
      have hi := ih (runPartition env lu mr0).mostRecent
      have e2 : (updateGo lu (env :: rest) mr0).2 =
          (updateGo lu rest (runPartition env lu mr0).mostRecent).2 := rfl
      have e1 : (updateGo lu (env :: rest) mr0).1 =
          runPartition env lu mr0 ::
            (updateGo lu rest (runPartition env lu mr0).mostRecent).1 := rfl
      constructor
      · rw [e2, e1, hi.1]
        simp only [List.map_cons, List.flatten_cons, List.foldl_append]
        rw [← hr.1]
      · rw [e2]
        exact Nat.le_trans hr.2 hi.2
  refine ⟨?_, hrun, ?_⟩
  · intro remote existing lu rd
    obtain ⟨δ, hd, hm⟩ := (getInfo_stats lu rd remote existing 0 ⟨lu, 0, []⟩).2
    simp only [List.nil_append] at hd
    have hdates : (fetch_file_directory remote existing lu rd).2.dates =
        (getInfo lu rd remote existing 0 ⟨lu, 0, []⟩).2.dates := rfl
    have hmr : (fetch_file_directory remote existing lu rd).2.mostRecent =
        (getInfo lu rd remote existing 0 ⟨lu, 0, []⟩).2.mostRecent := rfl
    constructor
    · rw [hmr, hdates, hm, hd]
    · rw [hmr, hm]
      exact le_foldl_max δ lu
  · intro lu parts
    exact hgo lu parts lu

/-! ## Prune lemmas, C2 and C10 -/

theorem pruneList_cons (newSet : List String) (f : String) (fs : List String) (d : Disk) :
    pruneList newSet (f :: fs) d =
      if f ∈ newSet then pruneList newSet fs d
      else
        match d f with
        | some _ => pruneList newSet fs (eraseFn d f)
        | none => Except.error d := rfl

theorem pruneList_none_pres (newSet : List String) : ∀ (es : List String) (disk : Disk)
    (x : String), disk x = none → exDisk (pruneList newSet es disk) x = none
  | [], _, _, h => h
  | g :: gs, disk, x, h => by
    rw [pruneList_cons]
    by_cases hg : g ∈ newSet
    · rw [if_pos hg]
      exact pruneList_none_pres newSet gs disk x h
    · rw [if_neg hg]
      cases hd : disk g with
      | some c =>
        exact pruneList_none_pres newSet gs (eraseFn disk g) x (by simp [eraseFn, h])
      | none => exact h

theorem pruneList_ok_deleted (newSet : List String) : ∀ (es : List String) (disk d : Disk),
    pruneList newSet es disk = Except.ok d → ∀ f, f ∈ es → f ∉ newSet → d f = none
  | [], _, _, _, f, hf, _ => absurd hf (List.not_mem_nil f)
  | g :: gs, disk, d, h, f, hf, hfn => by
    rw [pruneList_cons] at h
    by_cases hg : g ∈ newSet
    · rw [if_pos hg] at h
      rcases List.mem_cons.1 hf with rfl | hf'
      · exact absurd hg hfn
      · exact pruneList_ok_deleted newSet gs disk d h f hf' hfn
    · rw [if_neg hg] at h
      cases hd : disk g with
      | some c =>
        rw [hd] at h
        rcases List.mem_cons.1 hf with rfl | hf'
        · have hz : (eraseFn disk f) f = none := by simp [eraseFn]
          have h2 := pruneList_none_pres newSet gs (eraseFn disk f) f hz
          have h' : pruneList newSet gs (eraseFn disk f) = Except.ok d := h
          rw [h'] at h2
          exact h2
        · exact pruneList_ok_deleted newSet gs (eraseFn disk g) d h f hf' hfn
      | none =>
        rw [hd] at h
        exact absurd h (by simp)

theorem pruneList_ok_untouched (newSet : List String) : ∀ (es : List String) (disk d : Disk),
    pruneList newSet es disk = Except.ok d → ∀ y, y ∉ es → d y = disk y
  | [], disk, d, h, y, _ => by
    have : disk = d := by injection h
    rw [this]
  | g :: gs, disk, d, h, y, hy => by
    have hyg : y ≠ g := fun he => hy (he ▸ List.mem_cons_self g gs)
    have hygs : y ∉ gs := fun he => hy (List.mem_cons_of_mem g he)
    rw [pruneList_cons] at h
    by_cases hg : g ∈ newSet
    · rw [if_pos hg] at h
      exact pruneList_ok_untouched newSet gs disk d h y hygs
    · rw [if_neg hg] at h
      cases hd : disk g with
      | some c =>
        rw [hd] at h
        have := pruneList_ok_untouched newSet gs (eraseFn disk g) d h y hygs
        rw [this]
        simp [eraseFn, hyg]
      | none =>
        rw [hd] at h
        exact absurd h (by simp)

theorem pruneList_append_abort (newSet : List String) : ∀ (pre post : List String)
    (f : String) (disk d : Disk),
    pruneList newSet pre disk = Except.ok d → f ∉ newSet → d f = none →
    pruneList newSet (pre ++ f :: post) disk = Except.error d
  | [], post, f, disk, d, hpre, hf, hm => by
    have hd : disk = d := by injection hpre
    subst hd
    rw [List.nil_append, pruneList_cons, if_neg hf, hm]
  | g :: gs, post, f, disk, d, hpre, hf, hm => by
    rw [pruneList_cons] at hpre
    rw [List.cons_append, pruneList_cons]
    by_cases hg : g ∈ newSet
    · rw [if_pos hg] at hpre ⊢
      exact pruneList_append_abort newSet gs post f disk d hpre hf hm
    · rw [if_neg hg] at hpre ⊢
      cases hd : disk g with
      | some c =>
        rw [hd] at hpre
        exact pruneList_append_abort newSet gs post f (eraseFn disk g) d hpre hf hm
      | none =>
        rw [hd] at hpre
        exact absurd hpre (by simp)

theorem pruneList_all_mem (newSet : List String) : ∀ (es : List String) (disk : Disk),
    (∀ x ∈ es, x ∈ newSet) → pruneList newSet es disk = Except.ok disk
  | [], _, _ => rfl
  | g :: gs, disk, h => by
    rw [pruneList_cons]
    rw [if_pos (h g (List.mem_cons_self g gs))]
    exact pruneList_all_mem newSet gs disk (fun x hx => h x (List.mem_cons_of_mem g hx))

theorem processXmlFolder_cd (env : PartEnv) (date : Nat) {s t : CrawlState}
    (h : s.cd = t.cd) (xf : String) :
    (processXmlFolder env date s xf).cd = (processXmlFolder env date t xf).cd := by
  unfold processXmlFolder
  by_cases hc : env.fetchModules xf = []
  · rw [if_pos hc, if_pos hc]
    exact h
  · rw [if_neg hc, if_neg hc, h]

theorem processFolder_cd (env : PartEnv) (lu : Nat) (fd : String × Nat × String) :
    ∀ {s t : CrawlState}, s.cd = t.cd →
    (processFolder env lu s fd).cd = (processFolder env lu t fd).cd := by
  intro s t h
  unfold processFolder
  rw [h]
  by_cases hcond : fd.2.1 ≤ lu ∧ t.cd.containsCD fd.1 = true
  · rw [if_pos hcond, if_pos hcond]
  · rw [if_neg hcond, if_neg hcond]
    have : ∀ (l : List String) {s' t' : CrawlState}, s'.cd = t'.cd →
        (l.foldl (processXmlFolder env fd.2.1) s').cd =
        (l.foldl (processXmlFolder env fd.2.1) t').cd := by
      intro l
      induction l with
      | nil => intro s' t' h'; exact h'
      | cons a l ih =>
        intro s' t' h'
        exact ih (processXmlFolder_cd env fd.2.1 h' a)
    exact this _ h

theorem crawl_cd_foldl (env : PartEnv) (lu : Nat) (l : List (String × Nat × String)) :
    ∀ {s t : CrawlState}, s.cd = t.cd →
    (l.foldl (processFolder env lu) s).cd = (l.foldl (processFolder env lu) t).cd := by
  induction l with
  | nil => intro s t h; exact h
  | cons a l ih =>
    intro s t h
    exact ih (processFolder_cd env lu a h)

theorem runPartition_index_disk (env : PartEnv) (lu mr0 : Nat) (D D' : Disk) :
    (runPartition { env with disk0 := D } lu mr0).index =
      (runPartition { env with disk0 := D' } lu mr0).index := by
  have h1 : (runPartition { env with disk0 := D } lu mr0).index =
      (List.foldl (processFolder env lu)
        ⟨⟨env.prevQt, env.prevTools, [], []⟩, D, mr0, []⟩
        (iter_folders env.listing is_qt_or_tools)).cd.out := rfl
  have h2 : (runPartition { env with disk0 := D' } lu mr0).index =
      (List.foldl (processFolder env lu)
        ⟨⟨env.prevQt, env.prevTools, [], []⟩, D', mr0, []⟩
        (iter_folders env.listing is_qt_or_tools)).cd.out := rfl
  rw [h1, h2]
  exact congrArg CachedDirectory.out (crawl_cd_foldl env lu _ rfl)

/-- C10: if a folder that is stale (in a previous set, absent from the new
set) has no cache file on disk, the `unlink` raises file-not-found and the
prune pass aborts with the deletions made so far: folders after the failing
one in the iteration are left undeleted (pruning neither skips missing
files nor is atomic); the directory index computed and saved before the
prune is unaffected by the on-disk manifest state. -/
theorem prune_abort (newSet pre post : List String) (f : String) (disk0 d : Disk)
    (hpre : pruneList newSet pre disk0 = Except.ok d) (hf : f ∉ newSet)
    (hmiss : d f = none) :
    pruneList newSet (pre ++ f :: post) disk0 = Except.error d ∧
    (∀ y, y ∉ pre → d y = disk0 y) ∧
    (∀ (env : PartEnv) (lu mr0 : Nat) (D D' : Disk),
      (runPartition { env with disk0 := D } lu mr0).index =
        (runPartition { env with disk0 := D' } lu mr0).index) := by
  exact ⟨pruneList_append_abort newSet pre post f disk0 d hpre hf hmiss,
    pruneList_ok_untouched newSet pre disk0 d hpre,
    fun env lu mr0 D D' => runPartition_index_disk env lu mr0 D D'⟩

theorem prune_removed_files_ok (cd : CachedDirectory) (disk : Disk) (d : Disk)
    (hok : cd.prune_removed_files disk = Except.ok d) :
    (∀ f, f ∈ cd.previous_qt → f ∉ cd.new_qt → d f = none) ∧
    (∀ f, f ∈ cd.previous_tools → f ∉ cd.new_tools → d f = none) := by
  unfold CachedDirectory.prune_removed_files at hok
  cases hq : pruneList cd.new_qt cd.previous_qt disk with
  | error d0 =>
    rw [hq] at hok
    have hcontra : Except.error d0 = Except.ok d := hok
    exact absurd hcontra (by simp)
  | ok d1 =>
    rw [hq] at hok
    have hok2 : pruneList cd.new_tools cd.previous_tools d1 = Except.ok d := hok
    constructor
    · intro f h1 h2
      have hd1 := pruneList_ok_deleted cd.new_qt cd.previous_qt disk d1 hq f h1 h2
      have h3 := pruneList_none_pres cd.new_tools cd.previous_tools d1 f hd1
      rw [hok2] at h3
      exact h3
    · intro f h1 h2
      exact pruneList_ok_deleted cd.new_tools cd.previous_tools d1 d hok2 f h1 h2

/-- C2 counterexample: a folder in the previous qt set that is absent from
the remote listing can survive the run: with previous qt set
`{"qt5_15_2", "qt5_15_2/foo"}` and a listing containing only `qt5_15_2`
with a stale mtime, the run reuses `qt5_15_2`, which copies the nested
entry `qt5_15_2/foo` into the new set, so the prune pass completes without
deleting `qt5_15_2/foo.json` even though `qt5_15_2/foo` appears nowhere in
the listing. -/
theorem deletion_cex :
    "qt5_15_2/foo" ∈
      (⟨[("qt5_15_2", 5, "-")], fun _ => .mk false .nil, fun _ => [], fun _ => [], "",
        ["qt5_15_2", "qt5_15_2/foo"], [],
        fun x => if x = "qt5_15_2" ∨ x = "qt5_15_2/foo" then some [] else none⟩ :
        PartEnv).prevQt ∧
    (∀ r ∈ iter_folders ([("qt5_15_2", 5, "-")] : List (String × Nat × String))
        is_qt_or_tools, r.1 ≠ "qt5_15_2/foo") ∧
    exceptOk (runPartition
      (⟨[("qt5_15_2", 5, "-")], fun _ => .mk false .nil, fun _ => [], fun _ => [], "",
        ["qt5_15_2", "qt5_15_2/foo"], [],
        fun x => if x = "qt5_15_2" ∨ x = "qt5_15_2/foo" then some [] else none⟩ :
        PartEnv) 10 10).pruneResult = true ∧
    finalDisk (runPartition
      (⟨[("qt5_15_2", 5, "-")], fun _ => .mk false .nil, fun _ => [], fun _ => [], "",
        ["qt5_15_2", "qt5_15_2/foo"], [],
        fun x => if x = "qt5_15_2" ∨ x = "qt5_15_2/foo" then some [] else none⟩ :
        PartEnv) 10 10) "qt5_15_2/foo" = some [] := by
  refine ⟨by decide, by decide, ?_, ?_⟩ <;> rfl

/-- C2 (amended): the prune pass deletes the manifest cache file of exactly
the folders that are in a previous partition set but not in the
corresponding new set — after a run whose prune pass completes without
error, no such file remains on disk.  Absence from the remote listing does
not imply deletion, because `use_cached_folder` copies nested previously
known entries of a reused listed folder into the new set. -/
theorem deletion_pruning (env : PartEnv) (lu mr0 : Nat) (f : String) (d : Disk)
    (hok : (runPartition env lu mr0).pruneResult = Except.ok d) :
    (f ∈ env.prevQt → f ∉ (runPartition env lu mr0).newQt → d f = none) ∧
    (f ∈ env.prevTools → f ∉ (runPartition env lu mr0).newTools → d f = none) := by
  have hmain := prune_removed_files_ok
    ((iter_folders env.listing is_qt_or_tools).foldl (processFolder env lu)
      ⟨⟨env.prevQt, env.prevTools, [], []⟩, env.disk0, mr0, []⟩).cd
    ((iter_folders env.listing is_qt_or_tools).foldl (processFolder env lu)
      ⟨⟨env.prevQt, env.prevTools, [], []⟩, env.disk0, mr0, []⟩).disk d hok
  have hext := runPartition_extends env lu mr0
  constructor
  · intro h1 h2
    exact hmain.1 f (by rw [hext.1]; exact h1) h2
  · intro h1 h2
    exact hmain.2 f (by rw [hext.2.1]; exact h1) h2

/-- C2 amended, witnessed: a previous-set folder missing from the new set
has its file deleted by a completed prune pass. -/
theorem deletion_pruning_witness :
    eraseFn (fun x => if x = "qt5" then some [] else none) "qt5" "qt5" = none :=
  (deletion_pruning
    (⟨[], fun _ => .mk false .nil, fun _ => [], fun _ => [], "", ["qt5"], [],
      fun x => if x = "qt5" then some [] else none⟩ : PartEnv) 10 10 "qt5"
    (eraseFn (fun x => if x = "qt5" then some [] else none) "qt5") rfl).1
    (by decide) (by decide)

/-! ## C4 support: listing relevance, spider prefixes, fold frames -/

theorem iter_folders_relevant {rows : List (String × Nat × String)}
    {fd : String × Nat × String} (h : fd ∈ iter_folders rows is_qt_or_tools) :
    is_qt_or_tools fd.1 = true := by
  obtain ⟨r, -, hr⟩ := List.mem_filterMap.1 h
  have hr' : (if is_qt_or_tools (rstripSlash r.1) = true then
      some ((rstripSlash r.1), r.2.1, r.2.2) else none) = some fd := hr
  by_cases hp : is_qt_or_tools (rstripSlash r.1) = true
  · rw [if_pos hp] at hr'
    have := Option.some.inj hr'
    rw [← this]
    exact hp
  · rw [if_neg hp] at hr'
    exact absurd hr' (by simp)

theorem spiderEntries_cons (name : String) (date : Nat) (size : String) (sub : SpiderNode)
    (tl : SpEntries) (path : String) :
    spiderEntries (.cons name date size sub tl) path =
      (let n := rstripSlash name
       if is_qt_or_tools n then spider_folder sub (path ++ "/" ++ n) else [])
        ++ spiderEntries tl path := rfl

mutual
theorem spider_folder_starts : ∀ (n : SpiderNode) (path x : String),
    x ∈ spider_folder n path → x = path ∨ strStarts x (path ++ "/") = true
  | .mk b es, path, x, h => by
    cases b with
    | true =>
      have h' : x ∈ [path] := h
      exact Or.inl (List.mem_singleton.1 h')
    | false => exact spiderEntries_starts es path x h
  termination_by structural n => n
theorem spiderEntries_starts : ∀ (es : SpEntries) (path x : String),
    x ∈ spiderEntries es path → x = path ∨ strStarts x (path ++ "/") = true
  | .nil, _, _, h => absurd h (List.not_mem_nil _)
  | .cons name date size sub tl, path, x, h => by
    rw [spiderEntries_cons] at h
    rcases List.mem_append.1 h with h1 | h2
    · by_cases hq : is_qt_or_tools (rstripSlash name) = true
      · have h1' : x ∈ spider_folder sub (path ++ "/" ++ rstripSlash name) := by
          have he : (let n := rstripSlash name
              if is_qt_or_tools n then spider_folder sub (path ++ "/" ++ n) else []) =
              spider_folder sub (path ++ "/" ++ rstripSlash name) := by
            simp only [hq, ite_true]
          rw [he] at h1
          exact h1
        rcases spider_folder_starts sub (path ++ "/" ++ rstripSlash name) x h1' with rfl | hx
        · refine Or.inr ?_
          exact strStarts_append (path ++ "/") (rstripSlash name)
        · refine Or.inr (strStarts_trans hx ?_)
          rw [strStarts_iff]
          refine ⟨(rstripSlash name).data ++ "/".data, ?_⟩
          show (path.data ++ "/".data ++ (rstripSlash name).data) ++ "/".data = _
          simp [List.append_assoc]
      · have he : (let n := rstripSlash name
            if is_qt_or_tools n then spider_folder sub (path ++ "/" ++ n) else []) =
            ([] : List String) := by
          show (if is_qt_or_tools (rstripSlash name) = true then
            spider_folder sub (path ++ "/" ++ rstripSlash name) else []) = []
          rw [if_neg hq]
        rw [he] at h1
        exact absurd h1 (List.not_mem_nil x)
    · exact spiderEntries_starts tl path x h2
  termination_by structural es => es
end

theorem spider_starts_self {n : SpiderNode} {path x : String}
    (h : x ∈ spider_folder n path) : strStarts x path = true := by
  rcases spider_folder_starts n path x h with rfl | h2
  · exact strStarts_self x
  · exact strStarts_trans h2 (strStarts_append path "/")

theorem foldl_pxf_empty (env : PartEnv) (d : Nat) : ∀ (xs : List String) (st : CrawlState),
    (∀ x ∈ xs, env.fetchModules x = []) → xs.foldl (processXmlFolder env d) st = st
  | [], _, _ => rfl
  | x :: xs, st, h => by
    rw [List.foldl_cons]
    have hx : processXmlFolder env d st x = st := by
      unfold processXmlFolder
      rw [if_pos (h x (List.mem_cons_self x xs))]
    rw [hx]
    exact foldl_pxf_empty env d xs st (fun y hy => h y (List.mem_cons_of_mem x hy))

theorem containsCD_congr {cd cd' : CachedDirectory} (hq : cd.previous_qt = cd'.previous_qt)
    (ht : cd.previous_tools = cd'.previous_tools) (f : String) :
    cd.containsCD f = cd'.containsCD f := by
  unfold CachedDirectory.containsCD
  rw [hq, ht]

theorem containsCD_of_witness {cd : CachedDirectory} {f w : String}
    (hw : w ∈ cd.previous_set f) (hcase : w = f ∨ strStarts w (f ++ "/") = true) :
    cd.containsCD f = true := by
  unfold CachedDirectory.containsCD
  unfold CachedDirectory.previous_set at hw
  rw [List.any_eq_true]
  refine ⟨w, hw, ?_⟩
  rcases hcase with rfl | h2
  · simp
  · simp [h2]

theorem witness_of_containsCD {cd : CachedDirectory} {f : String}
    (h : cd.containsCD f = true) :
    ∃ w, w ∈ cd.previous_set f ∧ (w = f ∨ strStarts w (f ++ "/") = true) := by
  unfold CachedDirectory.containsCD at h
  rw [List.any_eq_true] at h
  obtain ⟨w, hw, hp⟩ := h
  refine ⟨w, hw, ?_⟩
  simpa using hp

theorem processXmlFolder_nodup (env : PartEnv) (d : Nat) (st : CrawlState) (xf : String)
    (hq : st.cd.new_qt.Nodup) (ht : st.cd.new_tools.Nodup) :
    (processXmlFolder env d st xf).cd.new_qt.Nodup ∧
    (processXmlFolder env d st xf).cd.new_tools.Nodup := by
  unfold processXmlFolder
  by_cases hc : env.fetchModules xf = []
  · rw [if_pos hc]
    exact ⟨hq, ht⟩
  · rw [if_neg hc]
    constructor
    · show ((st.cd.add_folder xf).add_folder xf).new_qt.Nodup
      rw [add_folder_new_qt, add_folder_new_qt]
      by_cases hxf : strStarts xf "qt" = true
      · rw [if_pos hxf, if_pos hxf]
        exact List.Nodup.insert (List.Nodup.insert hq)
      · rw [if_neg hxf, if_neg hxf]
        exact hq
    · show ((st.cd.add_folder xf).add_folder xf).new_tools.Nodup
      rw [add_folder_new_tools, add_folder_new_tools]
      by_cases hxf : strStarts xf "qt" = true
      · rw [if_pos hxf, if_pos hxf]
        exact ht
      · rw [if_neg hxf, if_neg hxf]
        exact List.Nodup.insert (List.Nodup.insert ht)

theorem processFolder_nodup (env : PartEnv) (lu : Nat) (st : CrawlState)
    (fd : String × Nat × String) (hq : st.cd.new_qt.Nodup) (ht : st.cd.new_tools.Nodup) :
    (processFolder env lu st fd).cd.new_qt.Nodup ∧
    (processFolder env lu st fd).cd.new_tools.Nodup := by
  unfold processFolder
  split
  · constructor
    · show (st.cd.use_cached_folder fd.1).new_qt.Nodup
      unfold CachedDirectory.use_cached_folder
      split
      · exact nodup_foldl_insert _ _ hq
      · exact hq
    · show (st.cd.use_cached_folder fd.1).new_tools.Nodup
      unfold CachedDirectory.use_cached_folder
      split
      · exact ht
      · exact nodup_foldl_insert _ _ ht
  · have : ∀ (xs : List String) (s : CrawlState), s.cd.new_qt.Nodup → s.cd.new_tools.Nodup →
        (xs.foldl (processXmlFolder env fd.2.1) s).cd.new_qt.Nodup ∧
        (xs.foldl (processXmlFolder env fd.2.1) s).cd.new_tools.Nodup := by
      intro xs
      induction xs with
      | nil => intro s h1 h2; exact ⟨h1, h2⟩
      | cons a l ih =>
        intro s h1 h2
        have := processXmlFolder_nodup env fd.2.1 s a h1 h2
        exact ih _ this.1 this.2
    exact this _ st hq ht

theorem crawl_nodup (env : PartEnv) (lu : Nat) (l : List (String × Nat × String)) :
    ∀ (st : CrawlState), st.cd.new_qt.Nodup → st.cd.new_tools.Nodup →
    (l.foldl (processFolder env lu) st).cd.new_qt.Nodup ∧
    (l.foldl (processFolder env lu) st).cd.new_tools.Nodup := by
  induction l with
  | nil => intro st h1 h2; exact ⟨h1, h2⟩
  | cons a l ih =>
    intro st h1 h2
    have := processFolder_nodup env lu st a h1 h2
    exact ih _ this.1 this.2

/-! ## C4 support: partition coherence -/

theorem processXmlFolder_pc (env : PartEnv) (d : Nat) (st : CrawlState) (xf : String)
    (h1 : ∀ e ∈ st.cd.new_qt, strStarts e "qt" = true)
    (h2 : ∀ e ∈ st.cd.new_tools, strStarts e "qt" = false) :
    (∀ e ∈ (processXmlFolder env d st xf).cd.new_qt, strStarts e "qt" = true) ∧
    (∀ e ∈ (processXmlFolder env d st xf).cd.new_tools, strStarts e "qt" = false) := by
  unfold processXmlFolder
  by_cases hc : env.fetchModules xf = []
  · rw [if_pos hc]
    exact ⟨h1, h2⟩
  · rw [if_neg hc]
    constructor
    · show ∀ e ∈ ((st.cd.add_folder xf).add_folder xf).new_qt, _
      intro e he
      rw [add_folder_new_qt, add_folder_new_qt] at he
      by_cases hxf : strStarts xf "qt" = true
      · rw [if_pos hxf, if_pos hxf] at he
        rcases List.mem_insert_iff.1 he with rfl | he'
        · exact hxf
        · rcases List.mem_insert_iff.1 he' with rfl | he''
          · exact hxf
          · exact h1 e he''
      · rw [if_neg hxf, if_neg hxf] at he
        exact h1 e he
    · show ∀ e ∈ ((st.cd.add_folder xf).add_folder xf).new_tools, _
      intro e he
      rw [add_folder_new_tools, add_folder_new_tools] at he
      by_cases hxf : strStarts xf "qt" = true
      · rw [if_pos hxf, if_pos hxf] at he
        exact h2 e he
      · rw [if_neg hxf, if_neg hxf] at he
        rcases List.mem_insert_iff.1 he with rfl | he'
        · exact Bool.eq_false_iff.2 hxf
        · rcases List.mem_insert_iff.1 he' with rfl | he''
          · exact Bool.eq_false_iff.2 hxf
          · exact h2 e he''

theorem processFolder_pc (env : PartEnv) (lu : Nat) (st : CrawlState)
    (fd : String × Nat × String) (hrel : is_qt_or_tools fd.1 = true)
    (h1 : ∀ e ∈ st.cd.new_qt, strStarts e "qt" = true)
    (h2 : ∀ e ∈ st.cd.new_tools, strStarts e "qt" = false) :
    (∀ e ∈ (processFolder env lu st fd).cd.new_qt, strStarts e "qt" = true) ∧
    (∀ e ∈ (processFolder env lu st fd).cd.new_tools, strStarts e "qt" = false) := by
  unfold processFolder
  split
  · constructor
    · show ∀ e ∈ (st.cd.use_cached_folder fd.1).new_qt, _
      intro e he
      unfold CachedDirectory.use_cached_folder at he
      by_cases hq : strStarts fd.1 "qt" = true
      · rw [if_pos hq] at he
        rcases (mem_foldl_insert _ _ _).1 he with he' | he'
        · exact h1 e he'
        · exact strStarts_trans (List.mem_filter.1 he').2 hq
      · rw [if_neg hq] at he
        exact h1 e he
    · show ∀ e ∈ (st.cd.use_cached_folder fd.1).new_tools, _
      intro e he
      unfold CachedDirectory.use_cached_folder at he
      by_cases hq : strStarts fd.1 "qt" = true
      · rw [if_pos hq] at he
        exact h2 e he
      · rw [if_neg hq] at he
        rcases (mem_foldl_insert _ _ _).1 he with he' | he'
        · exact h2 e he'
        · rw [partition_agree (List.mem_filter.1 he').2 (rel_length hrel)]
          exact Bool.eq_false_iff.2 hq
  · have : ∀ (xs : List String) (s : CrawlState),
        (∀ e ∈ s.cd.new_qt, strStarts e "qt" = true) →
        (∀ e ∈ s.cd.new_tools, strStarts e "qt" = false) →
        (∀ e ∈ (xs.foldl (processXmlFolder env fd.2.1) s).cd.new_qt,
          strStarts e "qt" = true) ∧
        (∀ e ∈ (xs.foldl (processXmlFolder env fd.2.1) s).cd.new_tools,
          strStarts e "qt" = false) := by
      intro xs
      induction xs with
      | nil => intro s g1 g2; exact ⟨g1, g2⟩
      | cons a l ih =>
        intro s g1 g2
        have := processXmlFolder_pc env fd.2.1 s a g1 g2
        exact ih _ this.1 this.2
    exact this _ st h1 h2

theorem crawl_pc (env : PartEnv) (lu : Nat) (l : List (String × Nat × String))
    (hrel : ∀ fd ∈ l, is_qt_or_tools fd.1 = true) :
    ∀ (st : CrawlState), (∀ e ∈ st.cd.new_qt, strStarts e "qt" = true) →
    (∀ e ∈ st.cd.new_tools, strStarts e "qt" = false) →
    (∀ e ∈ (l.foldl (processFolder env lu) st).cd.new_qt, strStarts e "qt" = true) ∧
    (∀ e ∈ (l.foldl (processFolder env lu) st).cd.new_tools, strStarts e "qt" = false) := by
  induction l with
  | nil => intro st h1 h2; exact ⟨h1, h2⟩
  | cons a l ih =>
    intro st h1 h2
    have hstep := processFolder_pc env lu st a (hrel a (List.mem_cons_self a l)) h1 h2
    exact ih (fun fd hfd => hrel fd (List.mem_cons_of_mem a hfd)) _ hstep.1 hstep.2

/-! ## C4 support: step equations, containment transfer, disk stability -/

theorem processXmlFolder_eq (env : PartEnv) (d : Nat) (s : CrawlState) (xf : String) :
    processXmlFolder env d s xf =
      if env.fetchModules xf = [] then s
      else ⟨(s.cd.add_folder xf).add_folder xf, updateFn s.disk xf (manifestFor env xf),
        if s.mostRecent < d then d else s.mostRecent, s.dates ++ [d]⟩ := by
  unfold processXmlFolder
  by_cases hc : env.fetchModules xf = []
  · rw [if_pos hc, if_pos hc]
  · rw [if_neg hc, if_neg hc]
    rfl

theorem strStarts_of_case {w f : String} (h : w = f ∨ strStarts w (f ++ "/") = true) :
    strStarts w f = true := by
  rcases h with rfl | h2
  · exact strStarts_self w
  · exact strStarts_trans h2 (strStarts_append f "/")

theorem contains_copied {cd : CachedDirectory} {f : String} (h : cd.containsCD f = true) :
    ∃ w, (w = f ∨ strStarts w (f ++ "/") = true) ∧ strStarts w f = true ∧
      (strStarts f "qt" = true → w ∈ (cd.use_cached_folder f).new_qt) ∧
      (strStarts f "qt" = false → w ∈ (cd.use_cached_folder f).new_tools) := by
  obtain ⟨w, hw, hcase⟩ := witness_of_containsCD h
  have hwf : strStarts w f = true := strStarts_of_case hcase
  refine ⟨w, hcase, hwf, ?_, ?_⟩
  · intro hq
    have hset : (cd.use_cached_folder f).new_qt =
        (cd.previous_qt.filter (fun e => strStarts e f)).foldl
          (fun s e => s.insert e) cd.new_qt := by
      unfold CachedDirectory.use_cached_folder
      rw [if_pos hq]
    rw [hset, mem_foldl_insert]
    refine Or.inr (List.mem_filter.2 ⟨?_, hwf⟩)
    unfold CachedDirectory.previous_set at hw
    rw [if_pos hq] at hw
    exact hw
  · intro hq
    have hq' : ¬ strStarts f "qt" = true := by simp [hq]
    have hset : (cd.use_cached_folder f).new_tools =
        (cd.previous_tools.filter (fun e => strStarts e f)).foldl
          (fun s e => s.insert e) cd.new_tools := by
      unfold CachedDirectory.use_cached_folder
      rw [if_neg hq']
    rw [hset, mem_foldl_insert]
    refine Or.inr (List.mem_filter.2 ⟨?_, hwf⟩)
    unfold CachedDirectory.previous_set at hw
    rw [if_neg hq'] at hw
    exact hw

theorem pxf_fold_sub (env : PartEnv) (d : Nat) : ∀ (xfs : List String) (s : CrawlState)
    (e : String),
    (e ∈ (xfs.foldl (processXmlFolder env d) s).cd.new_qt →
      e ∈ s.cd.new_qt ∨ (e ∈ xfs ∧ env.fetchModules e ≠ [] ∧ strStarts e "qt" = true)) ∧
    (e ∈ (xfs.foldl (processXmlFolder env d) s).cd.new_tools →
      e ∈ s.cd.new_tools ∨ (e ∈ xfs ∧ env.fetchModules e ≠ [] ∧ strStarts e "qt" = false))
  | [], _, _ => ⟨fun h => Or.inl h, fun h => Or.inl h⟩
  | xf :: xfs, s, e => by
    rw [List.foldl_cons]
    have ih := pxf_fold_sub env d xfs (processXmlFolder env d s xf) e
    constructor
    · intro h
      rcases ih.1 h with h1 | ⟨h1, h2, h3⟩
      · rw [processXmlFolder_eq] at h1
        by_cases hc : env.fetchModules xf = []
        · rw [if_pos hc] at h1
          exact Or.inl h1
        · rw [if_neg hc] at h1
          have h1' : e ∈ ((s.cd.add_folder xf).add_folder xf).new_qt := h1
          rw [add_folder_new_qt, add_folder_new_qt] at h1'
          by_cases hxf : strStarts xf "qt" = true
          · rw [if_pos hxf, if_pos hxf] at h1'
            rcases List.mem_insert_iff.1 h1' with rfl | h1''
            · exact Or.inr ⟨List.mem_cons_self _ _, hc, hxf⟩
            · rcases List.mem_insert_iff.1 h1'' with rfl | h1'''
              · exact Or.inr ⟨List.mem_cons_self _ _, hc, hxf⟩
              · exact Or.inl h1'''
          · rw [if_neg hxf, if_neg hxf] at h1'
            exact Or.inl h1'
      · exact Or.inr ⟨List.mem_cons_of_mem _ h1, h2, h3⟩
    · intro h
      rcases ih.2 h with h1 | ⟨h1, h2, h3⟩
      · rw [processXmlFolder_eq] at h1
        by_cases hc : env.fetchModules xf = []
        · rw [if_pos hc] at h1
          exact Or.inl h1
        · rw [if_neg hc] at h1
          have h1' : e ∈ ((s.cd.add_folder xf).add_folder xf).new_tools := h1
          rw [add_folder_new_tools, add_folder_new_tools] at h1'
          by_cases hxf : strStarts xf "qt" = true
          · rw [if_pos hxf, if_pos hxf] at h1'
            exact Or.inl h1'
          · rw [if_neg hxf, if_neg hxf] at h1'
            rcases List.mem_insert_iff.1 h1' with rfl | h1''
            · exact Or.inr ⟨List.mem_cons_self _ _, hc, Bool.eq_false_iff.2 hxf⟩
            · rcases List.mem_insert_iff.1 h1'' with rfl | h1'''
              · exact Or.inr ⟨List.mem_cons_self _ _, hc, Bool.eq_false_iff.2 hxf⟩
              · exact Or.inl h1'''
      · exact Or.inr ⟨List.mem_cons_of_mem _ h1, h2, h3⟩

theorem pxf_fold_mem (env : PartEnv) (d : Nat) : ∀ (xfs : List String) (s : CrawlState)
    (xf : String), xf ∈ xfs → env.fetchModules xf ≠ [] →
    (strStarts xf "qt" = true → xf ∈ (xfs.foldl (processXmlFolder env d) s).cd.new_qt) ∧
    (strStarts xf "qt" = false → xf ∈ (xfs.foldl (processXmlFolder env d) s).cd.new_tools)
  | [], _, _, hmem, _ => absurd hmem (List.not_mem_nil _)
  | a :: xfs, s, xf, hmem, hne => by
    rw [List.foldl_cons]
    rcases List.mem_cons.1 hmem with rfl | hmem'
    · have hext := crawlExtends_foldl (processXmlFolder env d) xfs
        (processXmlFolder env d s xf) (fun st b _ => processXmlFolder_extends env d st b)
      constructor
      · intro hq
        refine hext.2.2.1 xf ?_
        rw [processXmlFolder_eq, if_neg hne]
        show xf ∈ ((s.cd.add_folder xf).add_folder xf).new_qt
        rw [add_folder_new_qt, add_folder_new_qt, if_pos hq, if_pos hq]
        exact List.mem_insert_iff.2 (Or.inl rfl)
      · intro hq
        refine hext.2.2.2.1 xf ?_
        rw [processXmlFolder_eq, if_neg hne]
        show xf ∈ ((s.cd.add_folder xf).add_folder xf).new_tools
        rw [add_folder_new_tools, add_folder_new_tools,
          if_neg (by simp [hq]), if_neg (by simp [hq])]
        exact List.mem_insert_iff.2 (Or.inl rfl)
    · exact pxf_fold_mem env d xfs _ xf hmem' hne

theorem pxf_disk_pres (env : PartEnv) (d : Nat) (s : CrawlState) (xf' xf : String)
    (h : s.disk xf = some (manifestFor env xf)) :
    (processXmlFolder env d s xf').disk xf = some (manifestFor env xf) := by
  rw [processXmlFolder_eq]
  by_cases hc : env.fetchModules xf' = []
  · rw [if_pos hc]
    exact h
  · rw [if_neg hc]
    show updateFn s.disk xf' (manifestFor env xf') xf = _
    unfold updateFn
    by_cases hx : xf = xf'
    · subst hx
      rw [if_pos rfl]
    · rw [if_neg hx]
      exact h

theorem pxf_fold_disk_pres (env : PartEnv) (d : Nat) : ∀ (xfs : List String)
    (s : CrawlState) (xf : String), s.disk xf = some (manifestFor env xf) →
    (xfs.foldl (processXmlFolder env d) s).disk xf = some (manifestFor env xf)
  | [], _, _, h => h
  | a :: xfs, s, xf, h => by
    rw [List.foldl_cons]
    exact pxf_fold_disk_pres env d xfs _ xf (pxf_disk_pres env d s a xf h)

theorem pxf_fold_disk_write (env : PartEnv) (d : Nat) : ∀ (xfs : List String)
    (s : CrawlState) (xf : String), xf ∈ xfs → env.fetchModules xf ≠ [] →
    (xfs.foldl (processXmlFolder env d) s).disk xf = some (manifestFor env xf)
  | [], _, _, hm, _ => absurd hm (List.not_mem_nil _)
  | a :: xfs, s, xf, hm, hne => by
    rw [List.foldl_cons]
    rcases List.mem_cons.1 hm with rfl | hm'
    · refine pxf_fold_disk_pres env d xfs _ xf ?_
      rw [processXmlFolder_eq, if_neg hne]
      show updateFn s.disk xf (manifestFor env xf) xf = _
      unfold updateFn
      rw [if_pos rfl]
    · exact pxf_fold_disk_write env d xfs _ xf hm' hne

theorem pf_disk_pres (env : PartEnv) (lu : Nat) (s : CrawlState)
    (fd : String × Nat × String) (xf : String)
    (h : s.disk xf = some (manifestFor env xf)) :
    (processFolder env lu s fd).disk xf = some (manifestFor env xf) := by
  unfold processFolder
  split
  · exact h
  · exact pxf_fold_disk_pres env fd.2.1 _ s xf h

theorem pf_fold_disk_pres (env : PartEnv) (lu : Nat) :
    ∀ (l : List (String × Nat × String)) (s : CrawlState) (xf : String),
    s.disk xf = some (manifestFor env xf) →
    (l.foldl (processFolder env lu) s).disk xf = some (manifestFor env xf)
  | [], _, _, h => h
  | a :: l, s, xf, h => by
    rw [List.foldl_cons]
    exact pf_fold_disk_pres env lu l _ xf (pf_disk_pres env lu s a xf h)

theorem pruneList_val_pres (newSet : List String) : ∀ (es : List String) (disk : Disk)
    (x : String), (x ∈ newSet ∨ x ∉ es) →
    exDisk (pruneList newSet es disk) x = disk x
  | [], _, _, _ => rfl
  | g :: gs, disk, x, hx => by
    rw [pruneList_cons]
    have hx' : x ∈ newSet ∨ x ∉ gs := by
      rcases hx with h | h
      · exact Or.inl h
      · exact Or.inr (fun hm => h (List.mem_cons_of_mem g hm))
    by_cases hg : g ∈ newSet
    · rw [if_pos hg]
      exact pruneList_val_pres newSet gs disk x hx'
    · rw [if_neg hg]
      have hxg : x ≠ g := by
        rcases hx with h | h
        · exact fun he => hg (he ▸ h)
        · exact fun he => h (he ▸ List.mem_cons_self g gs)
      cases hd : disk g with
      | some c =>
        have hrec := pruneList_val_pres newSet gs (eraseFn disk g) x hx'
        rw [hrec]
        simp [eraseFn, hxg]
      | none => rfl

theorem prune_val_pres (cd : CachedDirectory) (disk : Disk) (x : String)
    (h1 : x ∈ cd.new_qt ∨ x ∉ cd.previous_qt)
    (h2 : x ∈ cd.new_tools ∨ x ∉ cd.previous_tools) :
    exDisk (cd.prune_removed_files disk) x = disk x := by
  unfold CachedDirectory.prune_removed_files
  cases hq : pruneList cd.new_qt cd.previous_qt disk with
  | error d0 =>
    have ha := pruneList_val_pres cd.new_qt cd.previous_qt disk x h1
    rw [hq] at ha
    exact ha
  | ok d1 =>
    have ha := pruneList_val_pres cd.new_qt cd.previous_qt disk x h1
    rw [hq] at ha
    have hb := pruneList_val_pres cd.new_tools cd.previous_tools d1 x h2
    show exDisk (pruneList cd.new_tools cd.previous_tools d1) x = disk x
    rw [hb]
    exact ha

theorem finalDisk_eq (r : RunResult) : finalDisk r = exDisk r.pruneResult := by
  unfold finalDisk exDisk
  cases r.pruneResult <;> rfl

theorem prune_removed_all_ok (cd : CachedDirectory) (disk : Disk)
    (h1 : ∀ x ∈ cd.previous_qt, x ∈ cd.new_qt)
    (h2 : ∀ x ∈ cd.previous_tools, x ∈ cd.new_tools) :
    cd.prune_removed_files disk = Except.ok disk := by
  unfold CachedDirectory.prune_removed_files
  rw [pruneList_all_mem cd.new_qt cd.previous_qt disk h1]
  exact pruneList_all_mem cd.new_tools cd.previous_tools disk h2

/-! ## C4 support: the parallel inner fold -/

theorem idem_inner (env : PartEnv) (d d2 : Nat) (Nq Nt : List String) (D : Disk) :
    ∀ (xfs : List String) (t₁ t₂ : CrawlState),
    (∀ xf ∈ xfs, env.fetchModules xf ≠ [] →
      ((strStarts xf "qt" = true → xf ∈ Nq) ∧ (strStarts xf "qt" = false → xf ∈ Nt)) ∧
      D xf = some (manifestFor env xf)) →
    IdemInv Nq Nt D t₁ t₂ →
    IdemInv Nq Nt D (xfs.foldl (processXmlFolder env d) t₁)
      (xfs.foldl (processXmlFolder env d2) t₂)
  | [], _, _, _, hinv => hinv
  | xf :: xfs, t₁, t₂, hx, hinv => by
    rw [List.foldl_cons, List.foldl_cons]
    refine idem_inner env d d2 Nq Nt D xfs _ _
      (fun y hy hne => hx y (List.mem_cons_of_mem xf hy) hne) ?_
    by_cases hc : env.fetchModules xf = []
    · rw [processXmlFolder_eq, processXmlFolder_eq, if_pos hc, if_pos hc]
      exact hinv
    · obtain ⟨hside, hdisk⟩ := hx xf (List.mem_cons_self xf xfs) hc
      obtain ⟨i1, i2, i3, i4, i5, i6, i7⟩ := hinv
      rw [processXmlFolder_eq, processXmlFolder_eq, if_neg hc, if_neg hc]
      refine ⟨?_, ?_, ?_, ?_, ?_, ?_, ?_⟩
      · show ((t₂.cd.add_folder xf).add_folder xf).previous_qt = Nq
        rw [add_folder_previous_qt, add_folder_previous_qt]
        exact i1
      · show ((t₂.cd.add_folder xf).add_folder xf).previous_tools = Nt
        rw [add_folder_previous_tools, add_folder_previous_tools]
        exact i2
      · show ∀ e ∈ ((t₂.cd.add_folder xf).add_folder xf).new_qt, e ∈ Nq
        intro e he
        rw [add_folder_new_qt, add_folder_new_qt] at he
        by_cases hxf : strStarts xf "qt" = true
        · rw [if_pos hxf, if_pos hxf] at he
          rcases List.mem_insert_iff.1 he with rfl | he'
          · exact hside.1 hxf
          · rcases List.mem_insert_iff.1 he' with rfl | he''
            · exact hside.1 hxf
            · exact i3 e he''
        · rw [if_neg hxf, if_neg hxf] at he
          exact i3 e he
      · show ∀ e ∈ ((t₂.cd.add_folder xf).add_folder xf).new_tools, e ∈ Nt
        intro e he
        rw [add_folder_new_tools, add_folder_new_tools] at he
        by_cases hxf : strStarts xf "qt" = true
        · rw [if_pos hxf, if_pos hxf] at he
          exact i4 e he
        · rw [if_neg hxf, if_neg hxf] at he
          rcases List.mem_insert_iff.1 he with rfl | he'
          · exact hside.2 (Bool.eq_false_iff.2 hxf)
          · rcases List.mem_insert_iff.1 he' with rfl | he''
            · exact hside.2 (Bool.eq_false_iff.2 hxf)
            · exact i4 e he''
      · show ∀ x, updateFn t₂.disk xf (manifestFor env xf) x = D x
        intro x
        unfold updateFn
        by_cases hxx : x = xf
        · subst hxx
          rw [if_pos rfl, hdisk]
        · rw [if_neg hxx]
          exact i5 x
      · show ∀ e ∈ ((t₁.cd.add_folder xf).add_folder xf).new_qt,
          e ∈ ((t₂.cd.add_folder xf).add_folder xf).new_qt
        intro e he
        rw [add_folder_new_qt, add_folder_new_qt] at he ⊢
        by_cases hxf : strStarts xf "qt" = true
        · rw [if_pos hxf, if_pos hxf] at he ⊢
          rcases List.mem_insert_iff.1 he with rfl | he'
          · exact List.mem_insert_iff.2 (Or.inl rfl)
          · rcases List.mem_insert_iff.1 he' with rfl | he''
            · exact List.mem_insert_iff.2 (Or.inl rfl)
            · exact List.mem_insert_iff.2
                (Or.inr (List.mem_insert_iff.2 (Or.inr (i6 e he''))))
        · rw [if_neg hxf, if_neg hxf] at he ⊢
          exact i6 e he
      · show ∀ e ∈ ((t₁.cd.add_folder xf).add_folder xf).new_tools,
          e ∈ ((t₂.cd.add_folder xf).add_folder xf).new_tools
        intro e he
        rw [add_folder_new_tools, add_folder_new_tools] at he ⊢
        by_cases hxf : strStarts xf "qt" = true
        · rw [if_pos hxf, if_pos hxf] at he ⊢
          exact i7 e he
        · rw [if_neg hxf, if_neg hxf] at he ⊢
          rcases List.mem_insert_iff.1 he with rfl | he'
          · exact List.mem_insert_iff.2 (Or.inl rfl)
          · rcases List.mem_insert_iff.1 he' with rfl | he''
            · exact List.mem_insert_iff.2 (Or.inl rfl)
            · exact List.mem_insert_iff.2
                (Or.inr (List.mem_insert_iff.2 (Or.inr (i7 e he''))))

/-! ## C4 support: the parallel crawl over the listing -/

theorem idem_parallel (env : PartEnv) (lu lu2 : Nat) (hlu : lu ≤ lu2) (st1 : CrawlState)
    (hp1 : st1.cd.previous_qt = env.prevQt) (hp2 : st1.cd.previous_tools = env.prevTools)
    (hpcq : ∀ e ∈ env.prevQt, strStarts e "qt" = true)
    (hpct : ∀ e ∈ env.prevTools, strStarts e "qt" = false) :
    ∀ (l : List (String × Nat × String)) (s₁ s₂ : CrawlState),
    (∀ fd ∈ l, is_qt_or_tools fd.1 = true) →
    l.foldl (processFolder env lu) s₁ = st1 →
    IdemInv st1.cd.new_qt st1.cd.new_tools
      (exDisk (st1.cd.prune_removed_files st1.disk)) s₁ s₂ →
    IdemInv st1.cd.new_qt st1.cd.new_tools
      (exDisk (st1.cd.prune_removed_files st1.disk))
      (l.foldl (processFolder env lu) s₁) (l.foldl (processFolder env lu2) s₂) := by
  intro l
  induction l with
  | nil =>
    intro s₁ s₂ _ _ hinv
    exact hinv
  | cons fd l ih =>
    intro s₁ s₂ hrel hfold hinv
    rw [List.foldl_cons] at hfold
    rw [List.foldl_cons, List.foldl_cons]
    obtain ⟨i1, i2, i3, i4, i5, i6, i7⟩ := hinv
    have hreli : is_qt_or_tools fd.1 = true := hrel fd (List.mem_cons_self fd l)
    have hrelt : ∀ g ∈ l, is_qt_or_tools g.1 = true :=
      fun g hg => hrel g (List.mem_cons_of_mem fd hg)
    have hflen : 2 ≤ fd.1.data.length := rel_length hreli
    have hext1 : CrawlExtends (processFolder env lu s₁ fd) st1 := by
      rw [← hfold]
      exact crawlExtends_foldl _ _ _ (fun st a _ => processFolder_extends env lu st a)
    by_cases h₂ : fd.2.1 ≤ lu2 ∧ s₂.cd.containsCD fd.1 = true
    · -- second run reuses the cached folder
      have hs2' : processFolder env lu2 s₂ fd =
          { s₂ with cd := s₂.cd.use_cached_folder fd.1 } := by
        unfold processFolder
        rw [if_pos h₂]
      have hput_qt : ∀ e, e ∈ st1.cd.new_qt → strStarts e fd.1 = true →
          strStarts fd.1 "qt" = true → e ∈ (s₂.cd.use_cached_folder fd.1).new_qt := by
        intro e heN hef hfq
        have hset : (s₂.cd.use_cached_folder fd.1).new_qt =
            (s₂.cd.previous_qt.filter (fun x => strStarts x fd.1)).foldl
              (fun s e => s.insert e) s₂.cd.new_qt := by
          unfold CachedDirectory.use_cached_folder
          rw [if_pos hfq]
        rw [hset, mem_foldl_insert]
        refine Or.inr (List.mem_filter.2 ⟨?_, hef⟩)
        rw [i1]
        exact heN
      have hput_tools : ∀ e, e ∈ st1.cd.new_tools → strStarts e fd.1 = true →
          strStarts fd.1 "qt" = false → e ∈ (s₂.cd.use_cached_folder fd.1).new_tools := by
        intro e heN hef hfq
        have hfq' : ¬ strStarts fd.1 "qt" = true := by simp [hfq]
        have hset : (s₂.cd.use_cached_folder fd.1).new_tools =
            (s₂.cd.previous_tools.filter (fun x => strStarts x fd.1)).foldl
              (fun s e => s.insert e) s₂.cd.new_tools := by
          unfold CachedDirectory.use_cached_folder
          rw [if_neg hfq']
        rw [hset, mem_foldl_insert]
        refine Or.inr (List.mem_filter.2 ⟨?_, hef⟩)
        rw [i2]
        exact heN
      have hB_qt : ∀ e ∈ (s₂.cd.use_cached_folder fd.1).new_qt, e ∈ st1.cd.new_qt := by
        intro e he
        unfold CachedDirectory.use_cached_folder at he
        by_cases hfq : strStarts fd.1 "qt" = true
        · rw [if_pos hfq] at he
          rcases (mem_foldl_insert _ _ _).1 he with h' | h'
          · exact i3 e h'
          · have hm := (List.mem_filter.1 h').1
            rw [i1] at hm
            exact hm
        · rw [if_neg hfq] at he
          exact i3 e he
      have hB_tools : ∀ e ∈ (s₂.cd.use_cached_folder fd.1).new_tools,
          e ∈ st1.cd.new_tools := by
        intro e he
        unfold CachedDirectory.use_cached_folder at he
        by_cases hfq : strStarts fd.1 "qt" = true
        · rw [if_pos hfq] at he
          exact i4 e he
        · rw [if_neg hfq] at he
          rcases (mem_foldl_insert _ _ _).1 he with h' | h'
          · exact i4 e h'
          · have hm := (List.mem_filter.1 h').1
            rw [i2] at hm
            exact hm
      have hD_qt : ∀ e ∈ (processFolder env lu s₁ fd).cd.new_qt,
          e ∈ (s₂.cd.use_cached_folder fd.1).new_qt := by
        intro e he
        have heN : e ∈ st1.cd.new_qt := hext1.2.2.1 e he
        by_cases h₁ : fd.2.1 ≤ lu ∧ s₁.cd.containsCD fd.1 = true
        · have hs1' : processFolder env lu s₁ fd =
              { s₁ with cd := s₁.cd.use_cached_folder fd.1 } := by
            unfold processFolder
            rw [if_pos h₁]
          rw [hs1'] at he
          have he' : e ∈ (s₁.cd.use_cached_folder fd.1).new_qt := he
          unfold CachedDirectory.use_cached_folder at he'
          by_cases hfq : strStarts fd.1 "qt" = true
          · rw [if_pos hfq] at he'
            rcases (mem_foldl_insert _ _ _).1 he' with h' | h'
            · exact mem_use_cached_new_qt (i6 e h')
            · exact hput_qt e heN (List.mem_filter.1 h').2 hfq
          · rw [if_neg hfq] at he'
            exact mem_use_cached_new_qt (i6 e he')
        · have hs1' : processFolder env lu s₁ fd =
              (spider_folder (env.spiderTree fd.1) fd.1).foldl
                (processXmlFolder env fd.2.1) s₁ := by
            unfold processFolder
            rw [if_neg h₁]
          rw [hs1'] at he
          rcases (pxf_fold_sub env fd.2.1 _ s₁ e).1 he with h' | ⟨hm, hne, hq⟩
          · exact mem_use_cached_new_qt (i6 e h')
          · have hef : strStarts e fd.1 = true := spider_starts_self hm
            have hfq : strStarts fd.1 "qt" = true := by
              rw [partition_agree hef hflen] at hq
              exact hq
            exact hput_qt e heN hef hfq
      have hD_tools : ∀ e ∈ (processFolder env lu s₁ fd).cd.new_tools,
          e ∈ (s₂.cd.use_cached_folder fd.1).new_tools := by
        intro e he
        have heN : e ∈ st1.cd.new_tools := hext1.2.2.2.1 e he
        by_cases h₁ : fd.2.1 ≤ lu ∧ s₁.cd.containsCD fd.1 = true
        · have hs1' : processFolder env lu s₁ fd =
              { s₁ with cd := s₁.cd.use_cached_folder fd.1 } := by
            unfold processFolder
            rw [if_pos h₁]
          rw [hs1'] at he
          have he' : e ∈ (s₁.cd.use_cached_folder fd.1).new_tools := he
          unfold CachedDirectory.use_cached_folder at he'
          by_cases hfq : strStarts fd.1 "qt" = true
          · rw [if_pos hfq] at he'
            exact mem_use_cached_new_tools (i7 e he')
          · rw [if_neg hfq] at he'
            rcases (mem_foldl_insert _ _ _).1 he' with h' | h'
            · exact mem_use_cached_new_tools (i7 e h')
            · exact hput_tools e heN (List.mem_filter.1 h').2 (Bool.eq_false_iff.2 hfq)
        · have hs1' : processFolder env lu s₁ fd =
              (spider_folder (env.spiderTree fd.1) fd.1).foldl
                (processXmlFolder env fd.2.1) s₁ := by
            unfold processFolder
            rw [if_neg h₁]
          rw [hs1'] at he
          rcases (pxf_fold_sub env fd.2.1 _ s₁ e).2 he with h' | ⟨hm, hne, hq⟩
          · exact mem_use_cached_new_tools (i7 e h')
          · have hef : strStarts e fd.1 = true := spider_starts_self hm
            have hfq : strStarts fd.1 "qt" = false := by
              rw [partition_agree hef hflen] at hq
              exact hq
            exact hput_tools e heN hef hfq
      have hstep : IdemInv st1.cd.new_qt st1.cd.new_tools
          (exDisk (st1.cd.prune_removed_files st1.disk))
          (processFolder env lu s₁ fd) (processFolder env lu2 s₂ fd) := by
        rw [hs2']
        refine ⟨?_, ?_, ?_, ?_, ?_, ?_, ?_⟩
        · show (s₂.cd.use_cached_folder fd.1).previous_qt = _
          rw [use_cached_previous_qt]
          exact i1
        · show (s₂.cd.use_cached_folder fd.1).previous_tools = _
          rw [use_cached_previous_tools]
          exact i2
        · exact hB_qt
        · exact hB_tools
        · exact i5
        · exact hD_qt
        · exact hD_tools
      exact ih _ _ hrelt hfold hstep
    · -- second run descends; the first run must have descended here as well
      have h₁' : ¬ (fd.2.1 ≤ lu ∧ s₁.cd.containsCD fd.1 = true) := by
        intro h₁
        apply h₂
        refine ⟨Nat.le_trans h₁.1 hlu, ?_⟩
        obtain ⟨w, hcase, hwf, hwq, hwt⟩ := contains_copied h₁.2
        have hs1' : processFolder env lu s₁ fd =
            { s₁ with cd := s₁.cd.use_cached_folder fd.1 } := by
          unfold processFolder
          rw [if_pos h₁]
        by_cases hfq : strStarts fd.1 "qt" = true
        · have hw1 : w ∈ (processFolder env lu s₁ fd).cd.new_qt := by
            rw [hs1']
            exact hwq hfq
          have hwN : w ∈ st1.cd.new_qt := hext1.2.2.1 w hw1
          refine containsCD_of_witness (w := w) ?_ hcase
          unfold CachedDirectory.previous_set
          rw [if_pos hfq, i1]
          exact hwN
        · have hw1 : w ∈ (processFolder env lu s₁ fd).cd.new_tools := by
            rw [hs1']
            exact hwt (Bool.eq_false_iff.2 hfq)
          have hwN : w ∈ st1.cd.new_tools := hext1.2.2.2.1 w hw1
          refine containsCD_of_witness (w := w) ?_ hcase
          unfold CachedDirectory.previous_set
          rw [if_neg hfq, i2]
          exact hwN
      have hs1' : processFolder env lu s₁ fd =
          (spider_folder (env.spiderTree fd.1) fd.1).foldl
            (processXmlFolder env fd.2.1) s₁ := by
        unfold processFolder
        rw [if_neg h₁']
      have hs2' : processFolder env lu2 s₂ fd =
          (spider_folder (env.spiderTree fd.1) fd.1).foldl
            (processXmlFolder env fd.2.1) s₂ := by
        unfold processFolder
        rw [if_neg h₂]
      have hx : ∀ xf ∈ spider_folder (env.spiderTree fd.1) fd.1,
          env.fetchModules xf ≠ [] →
          ((strStarts xf "qt" = true → xf ∈ st1.cd.new_qt) ∧
           (strStarts xf "qt" = false → xf ∈ st1.cd.new_tools)) ∧
          exDisk (st1.cd.prune_removed_files st1.disk) xf =
            some (manifestFor env xf) := by
        intro xf hm hne
        have hside := pxf_fold_mem env fd.2.1
          (spider_folder (env.spiderTree fd.1) fd.1) s₁ xf hm hne
        have hmemN : (strStarts xf "qt" = true → xf ∈ st1.cd.new_qt) ∧
            (strStarts xf "qt" = false → xf ∈ st1.cd.new_tools) := by
          constructor
          · intro hq
            refine hext1.2.2.1 xf ?_
            rw [hs1']
            exact hside.1 hq
          · intro hq
            refine hext1.2.2.2.1 xf ?_
            rw [hs1']
            exact hside.2 hq
        refine ⟨hmemN, ?_⟩
        have hw : (processFolder env lu s₁ fd).disk xf = some (manifestFor env xf) := by
          rw [hs1']
          exact pxf_fold_disk_write env fd.2.1 _ s₁ xf hm hne
        have hw1 : st1.disk xf = some (manifestFor env xf) := by
          rw [← hfold]
          exact pf_fold_disk_pres env lu l _ xf hw
        have hstable : exDisk (st1.cd.prune_removed_files st1.disk) xf = st1.disk xf := by
          refine prune_val_pres st1.cd st1.disk xf ?_ ?_
          · by_cases hq : strStarts xf "qt" = true
            · exact Or.inl (hmemN.1 hq)
            · refine Or.inr (fun hxp => ?_)
              rw [hp1] at hxp
              exact hq (hpcq xf hxp)
          · by_cases hq : strStarts xf "qt" = true
            · refine Or.inr (fun hxp => ?_)
              rw [hp2] at hxp
              have hf := hpct xf hxp
              rw [hq] at hf
              exact Bool.noConfusion hf
            · exact Or.inl (hmemN.2 (Bool.eq_false_iff.2 hq))
        rw [hstable]
        exact hw1
      have hstep : IdemInv st1.cd.new_qt st1.cd.new_tools
          (exDisk (st1.cd.prune_removed_files st1.disk))
          (processFolder env lu s₁ fd) (processFolder env lu2 s₂ fd) := by
        rw [hs1', hs2']
        exact idem_inner env fd.2.1 fd.2.1 _ _ _ _ _ _ hx ⟨i1, i2, i3, i4, i5, i6, i7⟩
      exact ih _ _ hrelt hfold hstep

/-! ## C4 support: one partition run twice, and the threaded partition loop -/

theorem runPartition_idem (env : PartEnv) (lu lu2 mr0 mr0' : Nat) (hlu : lu ≤ lu2)
    (hpcq : ∀ e ∈ env.prevQt, strStarts e "qt" = true)
    (hpct : ∀ e ∈ env.prevTools, strStarts e "qt" = false) :
    (runPartition (nextEnv env (runPartition env lu mr0)) lu2 mr0').index =
      (runPartition env lu mr0).index ∧
    (runPartition (nextEnv env (runPartition env lu mr0)) lu2 mr0').pruneResult =
      Except.ok (finalDisk (runPartition env lu mr0)) ∧
    finalDisk (runPartition (nextEnv env (runPartition env lu mr0)) lu2 mr0') =
      finalDisk (runPartition env lu mr0) := by
  let st0 : CrawlState := ⟨⟨env.prevQt, env.prevTools, [], []⟩, env.disk0, mr0, []⟩
  let st1 : CrawlState :=
    (iter_folders env.listing is_qt_or_tools).foldl (processFolder env lu) st0
  let st0₂ : CrawlState := ⟨⟨st1.cd.new_qt, st1.cd.new_tools, [], []⟩,
    exDisk (st1.cd.prune_removed_files st1.disk), mr0', []⟩
  let st2 : CrawlState :=
    (iter_folders env.listing is_qt_or_tools).foldl (processFolder env lu2) st0₂
  have hidx1 : (runPartition env lu mr0).index = st1.cd.out := rfl
  have hpr1 : (runPartition env lu mr0).pruneResult =
      st1.cd.prune_removed_files st1.disk := rfl
  have hfd1 : finalDisk (runPartition env lu mr0) =
      exDisk (st1.cd.prune_removed_files st1.disk) := by
    rw [finalDisk_eq, hpr1]
  have hidx2 : (runPartition (nextEnv env (runPartition env lu mr0)) lu2 mr0').index =
      st2.cd.out := rfl
  have hpr2 : (runPartition (nextEnv env (runPartition env lu mr0)) lu2 mr0').pruneResult =
      st2.cd.prune_removed_files st2.disk := rfl
  have hfd2 : finalDisk (runPartition (nextEnv env (runPartition env lu mr0)) lu2 mr0') =
      exDisk (st2.cd.prune_removed_files st2.disk) := by
    rw [finalDisk_eq, hpr2]
  have hrel : ∀ fd ∈ iter_folders env.listing is_qt_or_tools, is_qt_or_tools fd.1 = true :=
    fun fd h => iter_folders_relevant h
  have hext0 : CrawlExtends st0 st1 := runPartition_extends env lu mr0
  have hnd1 := crawl_nodup env lu (iter_folders env.listing is_qt_or_tools) st0
    List.nodup_nil List.nodup_nil
  have hnd2 := crawl_nodup env lu2 (iter_folders env.listing is_qt_or_tools) st0₂
    List.nodup_nil List.nodup_nil
  have hinv0 : IdemInv st1.cd.new_qt st1.cd.new_tools
      (exDisk (st1.cd.prune_removed_files st1.disk)) st0 st0₂ :=
    ⟨rfl, rfl, fun e he => absurd he (List.not_mem_nil e),
     fun e he => absurd he (List.not_mem_nil e), fun _ => rfl,
     fun e he => absurd he (List.not_mem_nil e),
     fun e he => absurd he (List.not_mem_nil e)⟩
  obtain ⟨j1, j2, j3, j4, j5, j6, j7⟩ :=
    idem_parallel env lu lu2 hlu st1 hext0.1 hext0.2.1 hpcq hpct
      (iter_folders env.listing is_qt_or_tools) st0 st0₂ hrel rfl hinv0
  have hmemq : ∀ x, x ∈ st2.cd.new_qt ↔ x ∈ st1.cd.new_qt :=
    fun x => ⟨fun h => j3 x h, fun h => j6 x h⟩
  have hmemt : ∀ x, x ∈ st2.cd.new_tools ↔ x ∈ st1.cd.new_tools :=
    fun x => ⟨fun h => j4 x h, fun h => j7 x h⟩
  have hsq : sortStr st2.cd.new_qt = sortStr st1.cd.new_qt :=
    sortStr_eq_of_mem hnd2.1 hnd1.1 hmemq
  have hst : sortStr st2.cd.new_tools = sortStr st1.cd.new_tools :=
    sortStr_eq_of_mem hnd2.2 hnd1.2 hmemt
  have hidx : st2.cd.out = st1.cd.out := by
    show (sortStr st2.cd.new_qt, sortStr st2.cd.new_tools) =
      (sortStr st1.cd.new_qt, sortStr st1.cd.new_tools)
    rw [hsq, hst]
  have hdisk2 : st2.disk = exDisk (st1.cd.prune_removed_files st1.disk) := funext j5
  have hok : st2.cd.prune_removed_files st2.disk = Except.ok st2.disk :=
    prune_removed_all_ok st2.cd st2.disk
      (fun x hx => j6 x (j1 ▸ hx)) (fun x hx => j7 x (j2 ▸ hx))
  refine ⟨?_, ?_, ?_⟩
  · rw [hidx2, hidx1]
    exact hidx
  · rw [hpr2, hok, hdisk2, hfd1]
  · rw [hfd2, hfd1, hok, hdisk2]
    rfl

theorem updateGo_le (lu : Nat) : ∀ (parts : List PartEnv) (mr : Nat),
    mr ≤ (updateGo lu parts mr).2
  | [], mr => Nat.le_refl mr
  | env :: rest, mr => by
    have h1 : mr ≤ (runPartition env lu mr).mostRecent := by
      obtain ⟨δ, hd, hm⟩ := (runPartition_extends env lu mr).2.2.2.2
      have hmr : (runPartition env lu mr).mostRecent =
          (List.foldl (processFolder env lu)
            ⟨⟨env.prevQt, env.prevTools, [], []⟩, env.disk0, mr, []⟩
            (iter_folders env.listing is_qt_or_tools)).mostRecent := rfl
      rw [hmr, hm]
      exact le_foldl_max δ mr
    have h2 := updateGo_le lu rest (runPartition env lu mr).mostRecent
    have e2 : (updateGo lu (env :: rest) mr).2 =
        (updateGo lu rest (runPartition env lu mr).mostRecent).2 := rfl
    rw [e2]
    exact Nat.le_trans h1 h2

theorem updateGo_idem (lu lu2 : Nat) (hlu : lu ≤ lu2) :
    ∀ (parts : List PartEnv) (mr mr' : Nat),
    (∀ env ∈ parts, (∀ e ∈ env.prevQt, strStarts e "qt" = true) ∧
      (∀ e ∈ env.prevTools, strStarts e "qt" = false)) →
    ((updateGo lu2 (List.zipWith nextEnv parts (updateGo lu parts mr).1) mr').1.map
        RunResult.index = (updateGo lu parts mr).1.map RunResult.index) ∧
    ((updateGo lu2 (List.zipWith nextEnv parts (updateGo lu parts mr).1) mr').1.map
        RunResult.pruneResult =
      (updateGo lu parts mr).1.map (fun r => Except.ok (finalDisk r))) ∧
    ((updateGo lu2 (List.zipWith nextEnv parts (updateGo lu parts mr).1) mr').1.map
        finalDisk = (updateGo lu parts mr).1.map finalDisk)
  | [], _, _, _ => ⟨rfl, rfl, rfl⟩
  | env :: rest, mr, mr', hpc => by
    have hhead := runPartition_idem env lu lu2 mr mr' hlu
      (hpc env (List.mem_cons_self env rest)).1 (hpc env (List.mem_cons_self env rest)).2
    have htail := updateGo_idem lu lu2 hlu rest (runPartition env lu mr).mostRecent
      (runPartition (nextEnv env (runPartition env lu mr)) lu2 mr').mostRecent
      (fun e he => hpc e (List.mem_cons_of_mem env he))
    have e1 : (updateGo lu (env :: rest) mr).1 =
        runPartition env lu mr ::
          (updateGo lu rest (runPartition env lu mr).mostRecent).1 := rfl
    have e2 : (updateGo lu2 (List.zipWith nextEnv (env :: rest)
            (updateGo lu (env :: rest) mr).1) mr').1 =
        runPartition (nextEnv env (runPartition env lu mr)) lu2 mr' ::
          (updateGo lu2 (List.zipWith nextEnv rest
              (updateGo lu rest (runPartition env lu mr).mostRecent).1)
            (runPartition (nextEnv env (runPartition env lu mr)) lu2 mr').mostRecent).1 :=
      rfl
    refine ⟨?_, ?_, ?_⟩
    · rw [e2, e1, List.map_cons, List.map_cons, hhead.1, htail.1]
    · rw [e2, e1, List.map_cons, List.map_cons, hhead.2.1, htail.2.1]
    · rw [e2, e1, List.map_cons, List.map_cons, hhead.2.2, htail.2.2]

/-! ## C4: idempotence -/

/-- C4: idempotence: running `update_xml_files` a second time against the
same remote data — each partition's previous directory index and on-disk
manifests taken from the first run's output (`nextEnv`), the second run's
cutoff being the `most_recent` value returned by the first — reproduces the
first run's state byte for byte: every partition's serialized directory
index is identical, the second prune pass is a clean no-op that returns the
first run's disk unchanged, and every manifest cache file is identical (the
per-partition disks agree as functions).  The hypotheses say the incoming
previous directory indexes are partition-coherent (qt names in the qt set,
others in the tools set), which holds of any index written by `save()`. -/
theorem update_idempotent (lu : Nat) (parts : List PartEnv)
    (hpc : ∀ env ∈ parts, (∀ e ∈ env.prevQt, strStarts e "qt" = true) ∧
      (∀ e ∈ env.prevTools, strStarts e "qt" = false)) :
    ((update_xml_files (update_xml_files lu parts).2
        (List.zipWith nextEnv parts (update_xml_files lu parts).1)).1.map
          RunResult.index =
      (update_xml_files lu parts).1.map RunResult.index) ∧
    ((update_xml_files (update_xml_files lu parts).2
        (List.zipWith nextEnv parts (update_xml_files lu parts).1)).1.map
          RunResult.pruneResult =
      (update_xml_files lu parts).1.map (fun r => Except.ok (finalDisk r))) ∧
    ((update_xml_files (update_xml_files lu parts).2
        (List.zipWith nextEnv parts (update_xml_files lu parts).1)).1.map
          finalDisk =
      (update_xml_files lu parts).1.map finalDisk) :=
  updateGo_idem lu (update_xml_files lu parts).2 (updateGo_le lu parts lu) parts lu
    (update_xml_files lu parts).2 hpc

/-- Witness for C4 at a concrete input: a single partition with an empty
listing and empty previous sets satisfies the partition-coherence
hypotheses and the theorem applies to it. -/
theorem update_idempotent_witness :
    (∀ env ∈ [emptyEnv], (∀ e ∈ env.prevQt, strStarts e "qt" = true) ∧
      (∀ e ∈ env.prevTools, strStarts e "qt" = false)) ∧
    (((update_xml_files (update_xml_files 0 [emptyEnv]).2
        (List.zipWith nextEnv [emptyEnv] (update_xml_files 0 [emptyEnv]).1)).1.map
          RunResult.index =
      (update_xml_files 0 [emptyEnv]).1.map RunResult.index) ∧
    ((update_xml_files (update_xml_files 0 [emptyEnv]).2
        (List.zipWith nextEnv [emptyEnv] (update_xml_files 0 [emptyEnv]).1)).1.map
          RunResult.pruneResult =
      (update_xml_files 0 [emptyEnv]).1.map (fun r => Except.ok (finalDisk r))) ∧
    ((update_xml_files (update_xml_files 0 [emptyEnv]).2
        (List.zipWith nextEnv [emptyEnv] (update_xml_files 0 [emptyEnv]).1)).1.map
          finalDisk =
      (update_xml_files 0 [emptyEnv]).1.map finalDisk)) := by
  have hpc : ∀ env ∈ [emptyEnv], (∀ e ∈ env.prevQt, strStarts e "qt" = true) ∧
      (∀ e ∈ env.prevTools, strStarts e "qt" = false) := by
    intro env he
    rcases List.mem_singleton.1 he with rfl
    exact ⟨fun e h => absurd h (List.not_mem_nil e),
      fun e h => absurd h (List.not_mem_nil e)⟩
  exact ⟨hpc, update_idempotent 0 [emptyEnv] hpc⟩

/-- C10, witnessed on a concrete three-file iteration: the second (missing)
stale file aborts the prune after the first was deleted, leaving the third
untouched. -/
theorem prune_abort_witness :
    pruneList [] (["a"] ++ "b" :: ["c"])
      (fun x => if x = "a" ∨ x = "c" then some [] else none) =
      Except.error (eraseFn (fun x => if x = "a" ∨ x = "c" then some [] else none) "a") ∧
    (∀ y, y ∉ ["a"] →
      eraseFn (fun x => if x = "a" ∨ x = "c" then some [] else none) "a" y =
      (fun x : String => if x = "a" ∨ x = "c" then some ([] : List (String × Pkg)) else none) y) ∧
    (∀ (env : PartEnv) (lu mr0 : Nat) (D D' : Disk),
      (runPartition { env with disk0 := D } lu mr0).index =
        (runPartition { env with disk0 := D' } lu mr0).index) :=
  prune_abort [] ["a"] ["c"] "b" (fun x => if x = "a" ∨ x = "c" then some [] else none)
    (eraseFn (fun x => if x = "a" ∨ x = "c" then some [] else none) "a")
    rfl (by decide) rfl

end QtRepoCache
